import Mathlib

/-!
Verification of the Apple Box Game DFS solver (`strategyDFS.py`, duplicated in
`src/algorithms/dfs_solver.py`).  The Python code is shallowly embedded:

* grids are lists of rows of integers; Python list indexing of grid cells is
  totalised with default 0 (the spec makes well-formedness a caller-side
  precondition), while indexing into `best_intermediate_scores` — the one
  place where a claim is about in-boundedness — is modelled exactly as
  fallible, so `recurse` returns an `Option` and `none` models an IndexError;
* the Python `float("inf")` entries of `best_intermediate_scores` are
  modelled by `Option Nat` with `none` standing for plus infinity;
* the `visited` set of integer hashes is modelled as a duplicate-free list
  (elements are inserted only after a failed membership test, and the code
  observes the set only through membership and its size);
* the recursion is modelled with an explicit fuel parameter so that it is
  structural and kernel-evaluable; `find_strategy` supplies fuel
  `posCount grid + 1`, which is proved sufficient because every applied move
  zeroes at least one positive cell (`posCount_zeroBox_lt`), so fuel
  exhaustion never occurs on the calls the program makes.
-/

/-- Grid type alias, from `strategyDFS.py` (`Grid = List[List[int]]`). -/
abbrev Grid := List (List Int)

/-- Box dataclass from `strategyDFS.py`. -/
structure Box where
  x : Nat
  y : Nat
  width : Nat
  height : Nat
deriving DecidableEq

/-- Strategy dataclass from `strategyDFS.py`. -/
structure Strategy where
  boxes : List Box
  score : Nat
deriving DecidableEq

/-- Reading a grid cell, `grid[i][j]`, totalised with default 0. -/
def cell (grid : Grid) (i j : Nat) : Int :=
  (grid.getD i []).getD j 0

/-- Hash of the grid state, from `hash_grid` in `strategyDFS.py`:
row-major fold `hash_val = hash_val * 11 + value`. -/
def hash_grid (grid : Grid) : Int :=
  grid.foldl (fun acc row => row.foldl (fun a v => a * 11 + v) acc) 0

/-- Zeroing one row segment: the inner `for j in range(x, x + w)` loop of the
`new_grid[i][j] = 0` update in `recurse`, with `j0` the index of the first
element of the remaining row suffix. -/
def zeroRowFrom (x w : Nat) : Nat → List Int → List Int
  | _, [] => []
  | j, v :: t => (if x ≤ j ∧ j < x + w then 0 else v) :: zeroRowFrom x w (j + 1) t

/-- Zeroing the rectangle rows: the outer `for i in range(y, y + h)` loop of
the `new_grid[i][j] = 0` update in `recurse`. -/
def zeroRowsFrom (x y w h : Nat) : Nat → Grid → Grid
  | _, [] => []
  | i, row :: t =>
      (if y ≤ i ∧ i < y + h then zeroRowFrom x w 0 row else row) ::
        zeroRowsFrom x y w h (i + 1) t

/-- The grid update of `recurse`: copy the grid and zero the chosen box. -/
def zeroBox (grid : Grid) (x y w h : Nat) : Grid :=
  zeroRowsFrom x y w h 0 grid

/-- Count of positive cells in one row segment of a box: the inner loop of the
`count` computation in `recurse` (`if grid[i][j] > 0: count += 1`), counting
over `j` in `range(x, x + w)`. -/
def countRowPos (grid : Grid) (i x : Nat) : Nat → Nat
  | 0 => 0
  | w + 1 => countRowPos grid i x w + (if 0 < cell grid i (x + w) then 1 else 0)

/-- Helper recursion for `boxPosCount`, over the number of rows. -/
def boxPosCountAux (grid : Grid) (x y w : Nat) : Nat → Nat
  | 0 => 0
  | h + 1 => boxPosCountAux grid x y w h + countRowPos grid (y + h) x w

/-- Count of positive cells of a box: the `count` computation in `recurse`,
summing the per-row counts over the rows `i` in `range(y, y + h)`. -/
def boxPosCount (grid : Grid) (x y w h : Nat) : Nat :=
  boxPosCountAux grid x y w h

/-- One entry-building step of the cumulative-sum table fill in `recurse`.
`nextCumRow grid i prev j` is the first `j + 1` entries of row `i + 1` of the
table, with `prev` the (fully built) row `i`: the Python loop body is
`cum_sum[i+1][j+1] = cum_sum[i+1][j] + cum_sum[i][j+1] - cum_sum[i][j] + grid[i][j]`. -/
def nextCumRow (grid : Grid) (i : Nat) (prev : List Int) : Nat → List Int
  | 0 => [0]
  | j + 1 =>
      let r := nextCumRow grid i prev j
      r ++ [r.getD j 0 + prev.getD (j + 1) 0 - prev.getD j 0 + cell grid i j]

/-- Row `a` of the cumulative-sum table built by `recurse`: row 0 is the
all-zero row `[0] * (W + 1)`, and each later row is filled from the previous
one by the loop body, with `W` entries appended after the leading zero. -/
def cumRow (grid : Grid) (W : Nat) : Nat → List Int
  | 0 => List.replicate (W + 1) 0
  | a + 1 => nextCumRow grid a (cumRow grid W a) W

/-- Entry `cum_sum[a][b]` of the cumulative-sum table of `recurse`. -/
def cum_sum (grid : Grid) (W a b : Nat) : Int :=
  (cumRow grid W a).getD b 0

/-- Box sum via the cumulative-sum table, as computed in `recurse`:
`cum_sum[y+h][x+w] - cum_sum[y+h][x] - cum_sum[y][x+w] + cum_sum[y][x]`. -/
def boxSum (grid : Grid) (W x y w h : Nat) : Int :=
  cum_sum grid W (y + h) (x + w) - cum_sum grid W (y + h) x -
    cum_sum grid W y (x + w) + cum_sum grid W y x

/-- Candidate move 5-tuple `(x, y, w, h, count)` collected by `recurse`. -/
structure CandidateMove where
  x : Nat
  y : Nat
  w : Nat
  h : Nat
  count : Nat
deriving DecidableEq

/-- Stable insertion of a move into a count-sorted list: the move is placed
before the first element whose count is not strictly smaller, so that among
equal counts earlier elements stay first. -/
def insertByCount (m : CandidateMove) : List CandidateMove → List CandidateMove
  | [] => [m]
  | a :: t => if a.count < m.count then a :: insertByCount m t else m :: a :: t

/-- Sorting the candidate list by `count`, as `possible_moves.sort(key=lambda
move: move[4])` does.  Python's `list.sort` is a stable sort, and a stable
sort by one key is uniquely determined; it is realised here as a stable
insertion sort, which is structural and hence kernel-evaluable. -/
def sortMoves : List CandidateMove → List CandidateMove
  | [] => []
  | a :: t => insertByCount a (sortMoves t)

/-- Insertion of one sum-10 rectangle into the bounded candidate list, from
`recurse`: if fewer than `D` candidates are collected the move is appended and
the list re-sorted; otherwise, if its count is strictly below the worst kept
count, it replaces the last (worst) element and the list is re-sorted.
The `getLast?` is `possible_moves[-1]`; the `none` case is unreachable
whenever `0 < D`, because then the guard `pm.length < D` catches `pm = []`. -/
def updateMoves (D : Nat) (pm : List CandidateMove) (m : CandidateMove) : List CandidateMove :=
  if pm.length < D then sortMoves (pm ++ [m])
  else
    match pm.getLast? with
    | none => pm
    | some lastM => if m.count < lastM.count then sortMoves (pm.dropLast ++ [m]) else pm

/-- The rectangle scan order of `recurse`: the nested loops
`for y in range(HEIGHT): for x in range(WIDTH): for h in range(1, HEIGHT-y+1):
for w in range(1, WIDTH-x+1)`, in lexicographic `(y, x, h, w)` order. -/
def rects (H W : Nat) : List (Nat × Nat × Nat × Nat) :=
  (List.range H).flatMap fun y =>
    (List.range W).flatMap fun x =>
      (List.range (H - y)).flatMap fun h1 =>
        (List.range (W - x)).map fun w1 => (y, x, h1 + 1, w1 + 1)

/-- The candidate enumeration of `recurse`: scan every in-bounds rectangle in
lexicographic `(y, x, h, w)` order, and feed each whose `box_sum` is exactly
10 (with its positive-cell count) to the bounded insertion `updateMoves`. -/
def possible_moves (H W D : Nat) (grid : Grid) : List CandidateMove :=
  (rects H W).foldl
    (fun pm r =>
      match r with
      | (y, x, h, w) =>
          if boxSum grid W x y w h = 10 then
            updateMoves D pm { x := x, y := y, w := w, h := h,
                               count := boxPosCount grid x y w h }
          else pm)
    []

/-- Score floor entry of `best_intermediate_scores`: `none` models the Python
`float("inf")` initial value, `some v` a recorded finite score. -/
abbrev ScoreFloor := Option Nat

/-- Comparison `score < floor` against a possibly-infinite floor, as Python
compares an `int` against `float("inf")` or a stored `int`. -/
def scoreLtFloor (s : Nat) : ScoreFloor → Bool
  | none => true
  | some v => s < v

/-- Update `min(floor, score)` with a possibly-infinite floor, as Python's
`min(best_intermediate_scores[num_moves], current_strategy.score)`. -/
def floorMin (f : ScoreFloor) (s : Nat) : ScoreFloor :=
  match f with
  | none => some s
  | some v => some (min v s)

/-- The state mutated across the recursion of `recurse`: the `visited` hash
set (as a duplicate-free list), the `best_intermediate_scores` array and the
`best_strategy` accumulator. -/
structure SearchState where
  visited : List Int
  best_intermediate_scores : List ScoreFloor
  best_strategy : Strategy
deriving DecidableEq

/-- First step of `recurse`: `if current_strategy.score > best_strategy.score`
copy the current boxes and score into the best strategy. -/
def updateBest (st : SearchState) (cur : Strategy) : SearchState :=
  if st.best_strategy.score < cur.score then
    { st with best_strategy := { boxes := cur.boxes, score := cur.score } }
  else st

/-- The underperformance test of `recurse`:
`num_moves > 0 and current_strategy.score < best_intermediate_scores[num_moves - 1]`.
Python's `and` short-circuits, so the list is only indexed when
`num_moves > 0`; an out-of-bounds index is an IndexError, modelled as `none`. -/
def underperfCheck (floors : List ScoreFloor) (score num_moves : Nat) : Option Bool :=
  if 0 < num_moves then (floors[num_moves - 1]?).map (scoreLtFloor score)
  else some false

/-- Maximum physical row length of the grid. -/
def gridWidth (grid : Grid) : Nat :=
  (grid.map List.length).foldr max 0

/-- Number of positive cells of the grid (over all physically present cells).
This is not a function of the source; it is the termination measure justifying
the fuel given to `recurse` (each applied move zeroes at least one positive
cell), and the measure behind the depth bound of the claims. -/
def posCount (grid : Grid) : Nat :=
  ∑ p ∈ Finset.range grid.length ×ˢ Finset.range (gridWidth grid),
    if 0 < cell grid p.1 p.2 then 1 else 0

/-- The recursive search of `strategyDFS.py` (`recurse`), with an explicit
structural fuel parameter (see the module comment).  The stages mirror the
source in order: update of the best strategy, underperformance pruning with
the floor update, the visited-hash pruning, the size cap on `visited`, the
marking of the hash, and the expansion of the bounded candidate moves with
copy-on-write grids and explicit strategy extension (the Python push/pop
backtracking is value passing here).  A result of `none` means an IndexError
on `best_intermediate_scores` (or fuel exhaustion, proved unreachable for the
fuel supplied by `find_strategy`). -/
def recurse (H W D : Nat) : Nat → Grid → SearchState → Strategy → Nat → Option SearchState
  | 0, _, _, _, _ => none
  | fuel + 1, grid, st0, cur, num_moves =>
    let st := updateBest st0 cur
    match underperfCheck st.best_intermediate_scores cur.score num_moves with
    | none => none
    | some true => some st
    | some false =>
      match st.best_intermediate_scores[num_moves]? with
      | none => none
      | some f =>
        let st1 := { st with best_intermediate_scores :=
          st.best_intermediate_scores.set num_moves (floorMin f cur.score) }
        let grid_hash := hash_grid grid
        if grid_hash ∈ st1.visited then some st1
        else if 1000 < st1.visited.length then some st1
        else
          let st2 := { st1 with visited := st1.visited ++ [grid_hash] }
          (possible_moves H W D grid).foldlM
            (fun s m =>
              recurse H W D fuel (zeroBox grid m.x m.y m.w m.h) s
                { boxes := cur.boxes ++ [{ x := m.x, y := m.y, width := m.w, height := m.h }],
                  score := cur.score + boxPosCount grid m.x m.y m.w m.h }
                (num_moves + 1))
            st2

/-- Bound `MAX_NUM_MOVES = HEIGHT * WIDTH // 2 + 1` of `strategyDFS.py`, as a
function of the grid dimensions. -/
def maxNumMoves (H W : Nat) : Nat :=
  H * W / 2 + 1

/-- Initial search state built by `find_strategy`: empty visited set, floors
all `float("inf")`, and the trivial best strategy. -/
def initialState (H W : Nat) : SearchState :=
  { visited := []
    best_intermediate_scores := List.replicate (maxNumMoves H W) none
    best_strategy := { boxes := [], score := 0 } }

/-- Top-level solve, `find_strategy` in `strategyDFS.py` (also
`DFSSolver.solve`), parametric in the dimension and branching constants of
`config.py`.  A `some` result is the returned `best_strategy`; `none` models
an uncaught IndexError. -/
def findStrategy (H W D : Nat) (grid : Grid) : Option Strategy :=
  (recurse H W D (posCount grid + 1) grid (initialState H W)
      { boxes := [], score := 0 } 0).map SearchState.best_strategy

/-- Constant `HEIGHT = 10` of `strategyDFS.py` / `config.py`. -/
def HEIGHT : Nat := 10

/-- Constant `WIDTH = 17` of `strategyDFS.py` / `config.py`. -/
def WIDTH : Nat := 17

/-- Constant `D = 4` of `strategyDFS.py` / `config.py`. -/
def D : Nat := 4

/-- Constant `MAX_NUM_MOVES` of `strategyDFS.py` / `config.py`. -/
def MAX_NUM_MOVES : Nat := maxNumMoves HEIGHT WIDTH

/-- The concrete `find_strategy` of the repository, at the constants of
`config.py`. -/
def find_strategy (grid : Grid) : Option Strategy :=
  findStrategy HEIGHT WIDTH D grid

/-- Sum of the grid values covered by a box, stated directly (spec language:
"the sum of the grid values it covers"). -/
def regionSum (grid : Grid) (x y w h : Nat) : Int :=
  ∑ p ∈ Finset.Ico y (y + h) ×ˢ Finset.Ico x (x + w), cell grid p.1 p.2

/-- Well-formed `H × W` grid: exactly `H` rows of exactly `W` cells each,
every value in `[0, 9]` (spec §3 and §6). -/
def wellFormed (H W : Nat) (grid : Grid) : Prop :=
  grid.length = H ∧ ∀ row ∈ grid, row.length = W ∧ ∀ v ∈ row, 0 ≤ v ∧ v ≤ 9

/-- Upper bound 9 on every cell (including the totalised default 0), the part
of well-formedness that the depth-bound arguments use. -/
def cellsLe9 (grid : Grid) : Prop :=
  ∀ i j, cell grid i j ≤ 9

/-- A box lying fully inside the `H × W` grid bounds with positive extent
(spec §3, Box). -/
def boxInBounds (H W : Nat) (b : Box) : Prop :=
  b.x + b.width ≤ W ∧ b.y + b.height ≤ H ∧ 1 ≤ b.width ∧ 1 ≤ b.height

instance boxInBoundsDecidable (H W : Nat) (b : Box) : Decidable (boxInBounds H W b) := by
  unfold boxInBounds
  infer_instance

instance wellFormedDecidable (H W : Nat) (grid : Grid) : Decidable (wellFormed H W grid) := by
  unfold wellFormed
  infer_instance

/-- Applying a box to a grid: zero the covered rectangle. -/
def applyBox (grid : Grid) (b : Box) : Grid :=
  zeroBox grid b.x b.y b.width b.height

/-- Replaying a whole box sequence in order. -/
def applyBoxes (grid : Grid) (bs : List Box) : Grid :=
  bs.foldl applyBox grid

/-- Validity of a box sequence against a grid, replayed in order: each box is
in bounds, has positive extent, and covers values summing to exactly 10 in
the grid state immediately before it is applied (spec §8, first property). -/
def boxesValid (H W : Nat) (grid : Grid) : List Box → Bool
  | [] => true
  | b :: bs =>
      decide (boxInBounds H W b) &&
      decide (regionSum grid b.x b.y b.width b.height = 10) &&
      boxesValid H W (applyBox grid b) bs

/-- Replayed score of a box sequence: the sum, in application order, of the
number of cells that are positive in the grid state immediately before each
box is applied (spec §8, second property). -/
def replayScore (grid : Grid) : List Box → Nat
  | [] => 0
  | b :: bs => boxPosCount grid b.x b.y b.width b.height + replayScore (applyBox grid b) bs

/-- All sum-10 rectangles of the scan, in the scan order of `recurse`: the
unbounded candidate list against which the bounded `possible_moves` selection
is compared (spec §4.1). -/
def sum10Candidates (H W : Nat) (grid : Grid) : List CandidateMove :=
  (rects H W).filterMap fun r =>
    match r with
    | (y, x, h, w) =>
        if boxSum grid W x y w h = 10 then
          some { x := x, y := y, w := w, h := h, count := boxPosCount grid x y w h }
        else none

/-- The claim of the spec that the fingerprint admits collisions between two
distinct well-formed grids of the repository's dimensions. -/
def hashCollisionClaim : Prop :=
  ∃ g1 g2 : Grid, wellFormed HEIGHT WIDTH g1 ∧ wellFormed HEIGHT WIDTH g2 ∧
    g1 ≠ g2 ∧ hash_grid g1 = hash_grid g2

theorem zeroRowFrom_getElem? (x w : Nat) :
    ∀ (l : List Int) (j0 j : Nat),
      (zeroRowFrom x w j0 l)[j]? =
        (l[j]?).map fun v => if x ≤ j0 + j ∧ j0 + j < x + w then 0 else v := by
  intro l
  induction l with
  | nil => intro j0 j; simp [zeroRowFrom]
  | cons v t ih =>
      intro j0 j
      cases j with
      | zero => simp [zeroRowFrom]
      | succ j =>
          simp only [zeroRowFrom, List.getElem?_cons_succ, ih (j0 + 1) j]
          have : j0 + 1 + j = j0 + (j + 1) := by omega
          rw [this]

theorem zeroRowsFrom_getElem? (x y w h : Nat) :
    ∀ (g : Grid) (i0 i : Nat),
      (zeroRowsFrom x y w h i0 g)[i]? =
        (g[i]?).map fun row =>
          if y ≤ i0 + i ∧ i0 + i < y + h then zeroRowFrom x w 0 row else row := by
  intro g
  induction g with
  | nil => intro i0 i; simp [zeroRowsFrom]
  | cons row t ih =>
      intro i0 i
      cases i with
      | zero => simp [zeroRowsFrom]
      | succ i =>
          simp only [zeroRowsFrom, List.getElem?_cons_succ, ih (i0 + 1) i]
          have : i0 + 1 + i = i0 + (i + 1) := by omega
          rw [this]

theorem getD_zeroRowFrom (x w : Nat) (l : List Int) (j0 j : Nat) :
    (zeroRowFrom x w j0 l).getD j 0 =
      if x ≤ j0 + j ∧ j0 + j < x + w then 0 else l.getD j 0 := by
  rw [List.getD_eq_getElem?_getD, List.getD_eq_getElem?_getD, zeroRowFrom_getElem?]
  cases l[j]? with
  | none => split <;> simp
  | some v => split <;> simp

theorem cell_zeroBox (grid : Grid) (x y w h i j : Nat) :
    cell (zeroBox grid x y w h) i j =
      if y ≤ i ∧ i < y + h ∧ x ≤ j ∧ j < x + w then 0 else cell grid i j := by
  unfold cell zeroBox
  simp only [List.getD_eq_getElem?_getD]
  rw [zeroRowsFrom_getElem?]
  cases grid[i]? with
  | none => split <;> simp
  | some row =>
      simp only [Option.map_some', Option.getD_some]
      by_cases hi : y ≤ 0 + i ∧ 0 + i < y + h
      · rw [if_pos hi]
        have hz := getD_zeroRowFrom x w row 0 j
        simp only [List.getD_eq_getElem?_getD] at hz
        rw [hz]
        by_cases hj : x ≤ 0 + j ∧ 0 + j < x + w
        · rw [if_pos hj, if_pos (by omega)]
        · rw [if_neg hj, if_neg (by omega)]
      · rw [if_neg hi, if_neg (by omega)]

theorem length_zeroRowsFrom (x y w h : Nat) :
    ∀ (g : Grid) (i0 : Nat), (zeroRowsFrom x y w h i0 g).length = g.length := by
  intro g
  induction g with
  | nil => intro i0; rfl
  | cons row t ih => intro i0; simp [zeroRowsFrom, ih]

theorem length_zeroRowFrom (x w : Nat) :
    ∀ (l : List Int) (j0 : Nat), (zeroRowFrom x w j0 l).length = l.length := by
  intro l
  induction l with
  | nil => intro j0; rfl
  | cons v t ih => intro j0; simp [zeroRowFrom, ih]

theorem map_length_zeroRowsFrom (x y w h : Nat) :
    ∀ (g : Grid) (i0 : Nat),
      (zeroRowsFrom x y w h i0 g).map List.length = g.map List.length := by
  intro g
  induction g with
  | nil => intro i0; rfl
  | cons row t ih =>
      intro i0
      simp only [zeroRowsFrom, List.map_cons, ih]
      split
      · rw [length_zeroRowFrom]
      · rfl

theorem gridWidth_zeroBox (grid : Grid) (x y w h : Nat) :
    gridWidth (zeroBox grid x y w h) = gridWidth grid := by
  unfold gridWidth zeroBox
  rw [map_length_zeroRowsFrom]

theorem length_zeroBox (grid : Grid) (x y w h : Nat) :
    (zeroBox grid x y w h).length = grid.length := by
  unfold zeroBox
  rw [length_zeroRowsFrom]

theorem countRowPos_eq (grid : Grid) (i x : Nat) :
    ∀ w, countRowPos grid i x w =
      ∑ k ∈ Finset.range w, if 0 < cell grid i (x + k) then 1 else 0 := by
  intro w
  induction w with
  | zero => simp [countRowPos]
  | succ w ih => rw [countRowPos, ih, Finset.sum_range_succ]

theorem boxPosCount_eq (grid : Grid) (x y w : Nat) :
    ∀ h, boxPosCount grid x y w h =
      ∑ r ∈ Finset.range h, ∑ k ∈ Finset.range w,
        if 0 < cell grid (y + r) (x + k) then 1 else 0 := by
  intro h
  induction h with
  | zero => simp [boxPosCount, boxPosCountAux]
  | succ h ih =>
      rw [boxPosCount, boxPosCountAux, Finset.sum_range_succ, ← ih, countRowPos_eq]
      rfl

theorem boxPosCount_eq_region (grid : Grid) (x y w h : Nat) :
    boxPosCount grid x y w h =
      ∑ p ∈ Finset.Ico y (y + h) ×ˢ Finset.Ico x (x + w),
        if 0 < cell grid p.1 p.2 then 1 else 0 := by
  rw [Finset.sum_product, boxPosCount_eq]
  rw [Finset.sum_Ico_eq_sum_range]
  simp only [Nat.add_sub_cancel_left]
  refine Finset.sum_congr rfl fun r _ => ?_
  rw [Finset.sum_Ico_eq_sum_range]
  simp only [Nat.add_sub_cancel_left]

theorem length_nextCumRow (grid : Grid) (i : Nat) (prev : List Int) :
    ∀ j, (nextCumRow grid i prev j).length = j + 1 := by
  intro j
  induction j with
  | zero => rfl
  | succ j ih => simp [nextCumRow, ih]

theorem nextCumRow_getD_stable (grid : Grid) (i : Nat) (prev : List Int) :
    ∀ j b, b ≤ j →
      (nextCumRow grid i prev j).getD b 0 = (nextCumRow grid i prev b).getD b 0 := by
  intro j
  induction j with
  | zero =>
      intro b hb
      have hb0 : b = 0 := by omega
      rw [hb0]
  | succ j ih =>
      intro b hb
      rcases Nat.eq_or_lt_of_le hb with heq | hlt
      · rw [heq]
      · rw [nextCumRow]
        rw [List.getD_append _ _ _ b (by rw [length_nextCumRow]; omega)]
        exact ih b (by omega)

theorem nextCumRow_getD_succ (grid : Grid) (i : Nat) (prev : List Int) (j : Nat) :
    (nextCumRow grid i prev (j + 1)).getD (j + 1) 0 =
      (nextCumRow grid i prev j).getD j 0 + prev.getD (j + 1) 0 - prev.getD j 0 +
        cell grid i j := by
  rw [nextCumRow]
  rw [List.getD_eq_getElem?_getD, List.getElem?_append]
  rw [if_neg (by rw [length_nextCumRow]; omega)]
  rw [length_nextCumRow]
  simp

theorem nextCumRow_diag (grid : Grid) (i : Nat) (prev : List Int)
    (h0 : prev.getD 0 0 = 0) :
    ∀ b, (nextCumRow grid i prev b).getD b 0 =
      prev.getD b 0 + ∑ k ∈ Finset.range b, cell grid i k := by
  intro b
  have h0' := h0
  simp only [List.getD_eq_getElem?_getD] at h0'
  induction b with
  | zero => simp [nextCumRow, h0']
  | succ b ih =>
      rw [nextCumRow_getD_succ, ih, Finset.sum_range_succ]
      ring

theorem cum_sum_eq (grid : Grid) (W : Nat) :
    ∀ a b, b ≤ W →
      cum_sum grid W a b =
        ∑ r ∈ Finset.range a, ∑ k ∈ Finset.range b, cell grid r k := by
  intro a
  induction a with
  | zero =>
      intro b hb
      unfold cum_sum cumRow
      rw [List.getD_eq_getElem, List.getElem_replicate]
      · simp
      · simp; omega
  | succ a ih =>
      intro b hb
      have h0 : (cumRow grid W a).getD 0 0 = 0 := by
        have := ih 0 (Nat.zero_le W)
        unfold cum_sum at this
        simpa using this
      unfold cum_sum cumRow
      rw [nextCumRow_getD_stable _ _ _ W b hb, nextCumRow_diag _ _ _ h0]
      rw [Finset.sum_range_succ]
      have hprev := ih b hb
      unfold cum_sum at hprev
      rw [hprev]

theorem boxSum_eq_regionSum (grid : Grid) (W x y w h : Nat) (hx : x + w ≤ W) :
    boxSum grid W x y w h = regionSum grid x y w h := by
  unfold boxSum regionSum
  rw [Finset.sum_product']
  rw [Finset.sum_Ico_eq_sub (fun r => ∑ k ∈ Finset.Ico x (x + w), cell grid r k)
      (by omega : y ≤ y + h)]
  have hR : ∀ r, ∑ k ∈ Finset.Ico x (x + w), cell grid r k =
      ∑ k ∈ Finset.range (x + w), cell grid r k - ∑ k ∈ Finset.range x, cell grid r k :=
    fun r => Finset.sum_Ico_eq_sub _ (by omega)
  simp only [hR]
  rw [Finset.sum_sub_distrib, Finset.sum_sub_distrib]
  rw [cum_sum_eq grid W (y + h) (x + w) hx, cum_sum_eq grid W (y + h) x (by omega),
      cum_sum_eq grid W y (x + w) hx, cum_sum_eq grid W y x (by omega)]
  ring

theorem length_le_gridWidth (grid : Grid) :
    ∀ row ∈ grid, row.length ≤ gridWidth grid := by
  induction grid with
  | nil => intro row h; cases h
  | cons r t ih =>
      intro row h
      rcases List.mem_cons.mp h with heq | hmem
      · rw [heq]; exact le_max_left _ _
      · exact le_trans (ih row hmem) (le_max_right _ _)

theorem cell_pos_index (grid : Grid) (i j : Nat) (hpos : 0 < cell grid i j) :
    (i, j) ∈ Finset.range grid.length ×ˢ Finset.range (gridWidth grid) := by
  unfold cell at hpos
  by_cases hi : i < grid.length
  · have hrow : grid.getD i [] = grid[i] := List.getD_eq_getElem grid [] hi
    by_cases hj : j < (grid.getD i []).length
    · rw [Finset.mem_product, Finset.mem_range, Finset.mem_range]
      constructor
      · exact hi
      · have hmem : grid.getD i [] ∈ grid := by
          rw [hrow]; exact List.getElem_mem hi
        have := length_le_gridWidth grid _ hmem
        omega
    · exfalso
      rw [List.getD_eq_getElem?_getD (grid.getD i []), List.getElem?_eq_none (by omega)]
        at hpos
      simp at hpos
  · exfalso
    rw [List.getD_eq_getElem?_getD grid, List.getElem?_eq_none (by omega)] at hpos
    simp at hpos

theorem mem_region_iff (x y w h : Nat) (p : Nat × Nat) :
    p ∈ Finset.Ico y (y + h) ×ˢ Finset.Ico x (x + w) ↔
      y ≤ p.1 ∧ p.1 < y + h ∧ x ≤ p.2 ∧ p.2 < x + w := by
  rw [Finset.mem_product, Finset.mem_Ico, Finset.mem_Ico]
  tauto

theorem exists_pos_in_region (grid : Grid) (x y w h : Nat)
    (hsum : regionSum grid x y w h = 10) :
    ∃ p ∈ Finset.Ico y (y + h) ×ˢ Finset.Ico x (x + w), 0 < cell grid p.1 p.2 := by
  by_contra hcon
  push_neg at hcon
  have : regionSum grid x y w h ≤ 0 :=
    Finset.sum_nonpos fun p hp => hcon p hp
  omega

theorem exists_two_pos_in_region (grid : Grid) (x y w h : Nat)
    (h9 : cellsLe9 grid) (hsum : regionSum grid x y w h = 10) :
    ∃ p ∈ Finset.Ico y (y + h) ×ˢ Finset.Ico x (x + w),
      ∃ q ∈ Finset.Ico y (y + h) ×ˢ Finset.Ico x (x + w),
        p ≠ q ∧ 0 < cell grid p.1 p.2 ∧ 0 < cell grid q.1 q.2 := by
  obtain ⟨p, hp, hppos⟩ := exists_pos_in_region grid x y w h hsum
  by_contra hcon
  push_neg at hcon
  have hother : ∀ q ∈ (Finset.Ico y (y + h) ×ˢ Finset.Ico x (x + w)).erase p,
      cell grid q.1 q.2 ≤ 0 := by
    intro q hq
    by_contra hq'
    exact absurd (hcon p hp q (Finset.mem_of_mem_erase hq)
        (Ne.symm (Finset.ne_of_mem_erase hq)) hppos) (by push_neg; omega)
  have hsplit : cell grid p.1 p.2 +
      ∑ q ∈ (Finset.Ico y (y + h) ×ˢ Finset.Ico x (x + w)).erase p, cell grid q.1 q.2 =
      ∑ q ∈ Finset.Ico y (y + h) ×ˢ Finset.Ico x (x + w), cell grid q.1 q.2 :=
    Finset.add_sum_erase _ (fun r : Nat × Nat => cell grid r.1 r.2) hp
  have h1 : ∑ q ∈ (Finset.Ico y (y + h) ×ˢ Finset.Ico x (x + w)).erase p,
      cell grid q.1 q.2 ≤ 0 := Finset.sum_nonpos hother
  have h2 : cell grid p.1 p.2 ≤ 9 := h9 p.1 p.2
  unfold regionSum at hsum
  omega

theorem posCount_zeroBox_lt (grid : Grid) (x y w h : Nat)
    (hsum : regionSum grid x y w h = 10) :
    posCount (zeroBox grid x y w h) < posCount grid := by
  obtain ⟨p, hpmem, hppos⟩ := exists_pos_in_region grid x y w h hsum
  unfold posCount
  rw [length_zeroBox, gridWidth_zeroBox]
  apply Finset.sum_lt_sum
  · intro q hq
    rw [cell_zeroBox]
    split
    · simp
    · exact le_refl _
  · refine ⟨p, cell_pos_index grid p.1 p.2 hppos, ?_⟩
    rw [mem_region_iff] at hpmem
    have hc : cell (zeroBox grid x y w h) p.1 p.2 = 0 := by
      rw [cell_zeroBox]; exact if_pos (by omega)
    rw [hc, if_pos hppos]
    simp

theorem posCount_zeroBox_add_two_le (grid : Grid) (x y w h : Nat)
    (h9 : cellsLe9 grid) (hsum : regionSum grid x y w h = 10) :
    posCount (zeroBox grid x y w h) + 2 ≤ posCount grid := by
  obtain ⟨p, hp, q, hq, hpq, hppos, hqpos⟩ :=
    exists_two_pos_in_region grid x y w h h9 hsum
  have hpS := cell_pos_index grid p.1 p.2 hppos
  have hqS := cell_pos_index grid q.1 q.2 hqpos
  rw [mem_region_iff] at hp hq
  set S := Finset.range grid.length ×ˢ Finset.range (gridWidth grid) with hS
  have hqS' : q ∈ S.erase p := Finset.mem_erase.mpr ⟨Ne.symm hpq, hqS⟩
  set f : Nat × Nat → Nat := fun r =>
    if 0 < cell (zeroBox grid x y w h) r.1 r.2 then 1 else 0 with hf
  set g : Nat × Nat → Nat := fun r => if 0 < cell grid r.1 r.2 then 1 else 0 with hg
  have hsums : posCount (zeroBox grid x y w h) = ∑ r ∈ S, f r := by
    unfold posCount
    rw [length_zeroBox, gridWidth_zeroBox]
  have hsumg : posCount grid = ∑ r ∈ S, g r := rfl
  have hgsplit : ∑ r ∈ S, g r = g p + (g q + ∑ r ∈ (S.erase p).erase q, g r) := by
    rw [Finset.add_sum_erase _ g hqS', Finset.add_sum_erase _ g hpS]
  have hfsplit : ∑ r ∈ S, f r = f p + (f q + ∑ r ∈ (S.erase p).erase q, f r) := by
    rw [Finset.add_sum_erase _ f hqS', Finset.add_sum_erase _ f hpS]
  have hfg : ∑ r ∈ (S.erase p).erase q, f r ≤ ∑ r ∈ (S.erase p).erase q, g r := by
    apply Finset.sum_le_sum
    intro r _
    rw [hf, hg]
    simp only
    rw [cell_zeroBox]
    split
    · simp
    · exact le_refl _
  have hcp : cell (zeroBox grid x y w h) p.1 p.2 = 0 := by
    rw [cell_zeroBox]; exact if_pos (by omega)
  have hcq : cell (zeroBox grid x y w h) q.1 q.2 = 0 := by
    rw [cell_zeroBox]; exact if_pos (by omega)
  have hfp : f p = 0 := by rw [hf]; simp only; rw [hcp]; simp
  have hfq : f q = 0 := by rw [hf]; simp only; rw [hcq]; simp
  have hgp : g p = 1 := by rw [hg]; simp only; rw [if_pos hppos]
  have hgq : g q = 1 := by rw [hg]; simp only; rw [if_pos hqpos]
  omega

theorem mem_rects (H W y x h w : Nat) :
    (y, x, h, w) ∈ rects H W ↔
      y < H ∧ x < W ∧ 1 ≤ h ∧ y + h ≤ H ∧ 1 ≤ w ∧ x + w ≤ W := by
  simp only [rects, List.mem_flatMap, List.mem_map, List.mem_range]
  constructor
  · rintro ⟨y', hy', x', hx', h1, hh1, w1, hw1, heq⟩
    obtain ⟨e1, e2, e3, e4⟩ := Prod.mk.injEq .. ▸ heq
    omega
  · intro hc
    refine ⟨y, by omega, x, by omega, h - 1, by omega, w - 1, by omega, ?_⟩
    have h3 : h - 1 + 1 = h := by omega
    have h4 : w - 1 + 1 = w := by omega
    rw [h3, h4]

theorem mem_insertByCount {a m : CandidateMove} :
    ∀ {l : List CandidateMove}, a ∈ insertByCount m l ↔ a = m ∨ a ∈ l := by
  intro l
  induction l with
  | nil => simp [insertByCount]
  | cons x t ih =>
      unfold insertByCount
      split
      · simp only [List.mem_cons, ih]
        tauto
      · simp only [List.mem_cons]

theorem pairwise_insertByCount (m : CandidateMove) :
    ∀ (l : List CandidateMove),
      List.Pairwise (fun a b => a.count ≤ b.count) l →
      List.Pairwise (fun a b => a.count ≤ b.count) (insertByCount m l) := by
  intro l
  induction l with
  | nil => intro _; simp [insertByCount]
  | cons x t ih =>
      intro hp
      rw [List.pairwise_cons] at hp
      unfold insertByCount
      split
      · rename_i hlt
        rw [List.pairwise_cons]
        constructor
        · intro b hb
          rcases mem_insertByCount.mp hb with hbm | hbt
          · rw [hbm]; omega
          · exact hp.1 b hbt
        · exact ih hp.2
      · rename_i hge
        rw [List.pairwise_cons]
        constructor
        · intro b hb
          rcases List.mem_cons.mp hb with hbx | hbt
          · rw [hbx]; omega
          · have := hp.1 b hbt
            omega
        · exact List.pairwise_cons.mpr hp
  
theorem movesSorted_sortMoves (l : List CandidateMove) :
    List.Pairwise (fun a b => a.count ≤ b.count) (sortMoves l) := by
  induction l with
  | nil => simp [sortMoves]
  | cons a t ih => exact pairwise_insertByCount a (sortMoves t) ih

theorem mem_sortMoves {a : CandidateMove} {l : List CandidateMove} :
    a ∈ sortMoves l ↔ a ∈ l := by
  induction l with
  | nil => simp [sortMoves]
  | cons x t ih =>
      unfold sortMoves
      rw [mem_insertByCount, List.mem_cons, ih]

theorem length_sortMoves (l : List CandidateMove) :
    (sortMoves l).length = l.length := by
  have hins : ∀ (m : CandidateMove) (l : List CandidateMove),
      (insertByCount m l).length = l.length + 1 := by
    intro m l
    induction l with
    | nil => rfl
    | cons x t ih =>
        unfold insertByCount
        split
        · simp only [List.length_cons, ih]
        · simp only [List.length_cons]
  induction l with
  | nil => rfl
  | cons a t ih =>
      unfold sortMoves
      rw [hins, ih, List.length_cons]

/-- Invariant of the bounded-candidate selection after processing a prefix of
the discovered sum-10 rectangles: the kept list is sorted by count, has the
length `min D (number processed)`, contains only processed candidates, is
exhaustive while below capacity, and every processed candidate left out has a
count at least that of every kept candidate. -/
def SelInv (Dv : Nat) (processed pm : List CandidateMove) : Prop :=
  List.Pairwise (fun a b => a.count ≤ b.count) pm ∧
  pm.length = min Dv processed.length ∧
  (∀ m ∈ pm, m ∈ processed) ∧
  (pm.length < Dv → ∀ c ∈ processed, c ∈ pm) ∧
  (∀ c ∈ processed, c ∉ pm → ∀ m ∈ pm, m.count ≤ c.count)

theorem selInv_nil (Dv : Nat) : SelInv Dv [] [] := by
  refine ⟨List.Pairwise.nil, by simp, ?_, ?_, ?_⟩
  · intro m hm; cases hm
  · intro _ c hc; cases hc
  · intro c hc; cases hc

theorem pm_le_getLast {pm : List CandidateMove} {lastM : CandidateMove}
    (hsort : List.Pairwise (fun a b => a.count ≤ b.count) pm)
    (hlast : pm.getLast? = some lastM) :
    ∀ m ∈ pm, m.count ≤ lastM.count := by
  intro m hm
  have hpmne : pm ≠ [] := by
    intro h0; rw [h0] at hlast; cases hlast
  have hlast' : lastM = pm.getLast hpmne := by
    have := List.getLast?_eq_getLast pm hpmne
    rw [hlast] at this
    exact Option.some.inj this
  have hdecomp := List.dropLast_append_getLast hpmne
  rw [← hdecomp] at hsort hm
  rw [List.pairwise_append] at hsort
  rcases List.mem_append.mp hm with hmd | hml
  · rw [hlast']
    exact hsort.2.2 m hmd _ (List.mem_singleton.mpr rfl)
  · rw [List.mem_singleton.mp hml, hlast']

theorem selInv_step (Dv : Nat) (processed pm : List CandidateMove)
    (c : CandidateMove) (h : SelInv Dv processed pm) :
    SelInv Dv (processed ++ [c]) (updateMoves Dv pm c) := by
  obtain ⟨hsort, hlen, hmem, hfill, hmin⟩ := h
  unfold updateMoves
  by_cases hlt : pm.length < Dv
  · rw [if_pos hlt]
    refine ⟨movesSorted_sortMoves _, ?_, ?_, ?_, ?_⟩
    · rw [length_sortMoves, List.length_append, List.length_append]
      simp only [List.length_singleton]
      omega
    · intro m hm
      rcases List.mem_append.mp (mem_sortMoves.mp hm) with h1 | h2
      · exact List.mem_append_left _ (hmem m h1)
      · exact List.mem_append_right _ h2
    · intro _ c' hc'
      rw [mem_sortMoves, List.mem_append]
      rcases List.mem_append.mp hc' with h1 | h2
      · exact Or.inl (hfill hlt c' h1)
      · exact Or.inr h2
    · intro c' hc' hnotin m _
      exfalso
      apply hnotin
      rw [mem_sortMoves, List.mem_append]
      rcases List.mem_append.mp hc' with h1 | h2
      · exact Or.inl (hfill hlt c' h1)
      · exact Or.inr h2
  · rw [if_neg hlt]
    cases hlast : pm.getLast? with
    | none =>
        have hpm0 : pm = [] := List.getLast?_eq_none_iff.mp hlast
        have hD0 : Dv = 0 := by rw [hpm0] at hlt; simpa using hlt
        subst hpm0
        refine ⟨List.Pairwise.nil, by simp [hD0], ?_, ?_, ?_⟩
        · intro m hm; cases hm
        · intro hc; omega
        · intro c' _ _ m hm; cases hm
    | some lastM =>
        dsimp only
        have hlastmem : lastM ∈ pm := by
          have hpmne : pm ≠ [] := by
            intro h0; rw [h0] at hlast; cases hlast
          have hlast' : lastM = pm.getLast hpmne := by
            have := List.getLast?_eq_getLast pm hpmne
            rw [hlast] at this
            exact Option.some.inj this
          rw [hlast']
          exact List.getLast_mem hpmne
        have hmax := pm_le_getLast hsort hlast
        by_cases hcnt : c.count < lastM.count
        · rw [if_pos hcnt]
          have hpmne : pm ≠ [] := by
            intro h0; rw [h0] at hlast; cases hlast
          refine ⟨movesSorted_sortMoves _, ?_, ?_, ?_, ?_⟩
          · rw [length_sortMoves, List.length_append, List.length_dropLast,
              List.length_append]
            have : pm.length ≠ 0 := fun h0 => hpmne (List.length_eq_zero.mp h0)
            simp only [List.length_singleton]
            omega
          · intro m hm
            rcases List.mem_append.mp (mem_sortMoves.mp hm) with h1 | h2
            · exact List.mem_append_left _ (hmem m (List.dropLast_subset pm h1))
            · exact List.mem_append_right _ h2
          · intro hlen' c' _
            exfalso
            rw [length_sortMoves, List.length_append, List.length_dropLast] at hlen'
            have : pm.length ≠ 0 := fun h0 => hpmne (List.length_eq_zero.mp h0)
            simp only [List.length_singleton] at hlen'
            omega
          · intro c' hc' hnotin m hm
            rcases List.mem_append.mp (mem_sortMoves.mp hm) with hmd | hmc
            · -- m comes from pm.dropLast
              have hmpm : m ∈ pm := List.dropLast_subset pm hmd
              rcases List.mem_append.mp hc' with h1 | h2
              · by_cases hcinpm : c' ∈ pm
                · -- c' was evicted, hence c' = lastM
                  have hc'last : c' = lastM := by
                    have hdecomp := List.dropLast_append_getLast hpmne
                    have hlast' : lastM = pm.getLast hpmne := by
                      have := List.getLast?_eq_getLast pm hpmne
                      rw [hlast] at this
                      exact Option.some.inj this
                    rw [← hdecomp] at hcinpm
                    rcases List.mem_append.mp hcinpm with hcd | hcl
                    · exfalso
                      exact hnotin (mem_sortMoves.mpr (List.mem_append_left _ hcd))
                    · rw [List.mem_singleton.mp hcl, hlast']
                  rw [hc'last]
                  exact hmax m hmpm
                · exact hmin c' h1 hcinpm m hmpm
              · exfalso
                apply hnotin
                rw [List.mem_singleton.mp h2]
                exact mem_sortMoves.mpr (List.mem_append_right _ (List.mem_singleton.mpr rfl))
            · -- m = c
              rw [List.mem_singleton.mp hmc]
              rcases List.mem_append.mp hc' with h1 | h2
              · by_cases hcinpm : c' ∈ pm
                · have hc'last : c' = lastM := by
                    have hdecomp := List.dropLast_append_getLast hpmne
                    have hlast' : lastM = pm.getLast hpmne := by
                      have := List.getLast?_eq_getLast pm hpmne
                      rw [hlast] at this
                      exact Option.some.inj this
                    rw [← hdecomp] at hcinpm
                    rcases List.mem_append.mp hcinpm with hcd | hcl
                    · exfalso
                      exact hnotin (mem_sortMoves.mpr (List.mem_append_left _ hcd))
                    · rw [List.mem_singleton.mp hcl, hlast']
                  rw [hc'last]
                  omega
                · have := hmin c' h1 hcinpm lastM hlastmem
                  omega
              · exfalso
                apply hnotin
                rw [List.mem_singleton.mp h2]
                exact mem_sortMoves.mpr (List.mem_append_right _ (List.mem_singleton.mpr rfl))
        · rw [if_neg hcnt]
          refine ⟨hsort, ?_, ?_, ?_, ?_⟩
          · rw [List.length_append]
            simp only [List.length_singleton]
            omega
          · intro m hm
            exact List.mem_append_left _ (hmem m hm)
          · intro hlen'; omega
          · intro c' hc' hnotin m hm
            rcases List.mem_append.mp hc' with h1 | h2
            · exact hmin c' h1 hnotin m hm
            · rw [List.mem_singleton.mp h2]
              have := hmax m hm
              omega

theorem selInv_foldl (Dv : Nat) :
    ∀ (l : List CandidateMove) (processed pm : List CandidateMove),
      SelInv Dv processed pm → SelInv Dv (processed ++ l) (l.foldl (updateMoves Dv) pm) := by
  intro l
  induction l with
  | nil => intro processed pm h; simpa using h
  | cons a t ih =>
      intro processed pm h
      have h2 := ih (processed ++ [a]) _ (selInv_step Dv processed pm a h)
      simpa [List.append_assoc] using h2

theorem possible_moves_foldl_aux (H W D : Nat) (grid : Grid) :
    ∀ (l : List (Nat × Nat × Nat × Nat)) (pm : List CandidateMove),
      l.foldl
        (fun pm r =>
          match r with
          | (y, x, h, w) =>
              if boxSum grid W x y w h = 10 then
                updateMoves D pm { x := x, y := y, w := w, h := h,
                                   count := boxPosCount grid x y w h }
              else pm)
        pm =
      (l.filterMap fun r =>
        match r with
        | (y, x, h, w) =>
            if boxSum grid W x y w h = 10 then
              some { x := x, y := y, w := w, h := h,
                     count := boxPosCount grid x y w h }
            else none).foldl (updateMoves D) pm := by
  intro l
  induction l with
  | nil => intro pm; rfl
  | cons r t ih =>
      intro pm
      obtain ⟨y, x, h, w⟩ := r
      rw [List.foldl_cons, List.filterMap_cons]
      dsimp only
      by_cases hb : boxSum grid W x y w h = 10
      · simp only [if_pos hb]
        rw [List.foldl_cons]
        exact ih _
      · simp only [if_neg hb]
        exact ih pm

theorem possible_moves_eq (H W D : Nat) (grid : Grid) :
    possible_moves H W D grid = (sum10Candidates H W grid).foldl (updateMoves D) [] := by
  unfold possible_moves sum10Candidates
  exact possible_moves_foldl_aux H W D grid (rects H W) []

theorem selInv_possible_moves (H W Dv : Nat) (grid : Grid) :
    SelInv Dv (sum10Candidates H W grid) (possible_moves H W Dv grid) := by
  rw [possible_moves_eq]
  have h := selInv_foldl Dv (sum10Candidates H W grid) [] [] (selInv_nil Dv)
  simpa using h

theorem mem_sum10Candidates (H W : Nat) (grid : Grid) (m : CandidateMove) :
    m ∈ sum10Candidates H W grid ↔
      ((m.y, m.x, m.h, m.w) ∈ rects H W ∧ boxSum grid W m.x m.y m.w m.h = 10 ∧
        m.count = boxPosCount grid m.x m.y m.w m.h) := by
  unfold sum10Candidates
  rw [List.mem_filterMap]
  constructor
  · rintro ⟨⟨y, x, h, w⟩, hrin, heq⟩
    dsimp only at heq
    by_cases hb : boxSum grid W x y w h = 10
    · rw [if_pos hb] at heq
      have heq' := Option.some.inj heq
      subst heq'
      exact ⟨hrin, hb, rfl⟩
    · rw [if_neg hb] at heq; cases heq
  · rintro ⟨hrin, hb, hcnt⟩
    refine ⟨(m.y, m.x, m.h, m.w), hrin, ?_⟩
    dsimp only
    rw [if_pos hb, ← hcnt]
  
theorem mem_possible_moves (H W Dv : Nat) (grid : Grid) (m : CandidateMove)
    (hm : m ∈ possible_moves H W Dv grid) :
    m.y + m.h ≤ H ∧ m.x + m.w ≤ W ∧ 1 ≤ m.h ∧ 1 ≤ m.w ∧
      boxSum grid W m.x m.y m.w m.h = 10 ∧
      m.count = boxPosCount grid m.x m.y m.w m.h := by
  have hc := (selInv_possible_moves H W Dv grid).2.2.1 m hm
  rw [mem_sum10Candidates] at hc
  obtain ⟨hr, hb, hcnt⟩ := hc
  rw [mem_rects] at hr
  exact ⟨by omega, by omega, by omega, by omega, hb, hcnt⟩

theorem mem_possible_moves_regionSum (H W Dv : Nat) (grid : Grid) (m : CandidateMove)
    (hm : m ∈ possible_moves H W Dv grid) :
    regionSum grid m.x m.y m.w m.h = 10 := by
  obtain ⟨_, hxw, _, _, hb, _⟩ := mem_possible_moves H W Dv grid m hm
  rw [← boxSum_eq_regionSum grid W m.x m.y m.w m.h hxw]
  exact hb

theorem foldlM_option_inv {α β : Type} (P : β → Prop) :
    ∀ (l : List α) (f : β → α → Option β),
      (∀ b a, a ∈ l → P b → ∀ b', f b a = some b' → P b') →
      ∀ b b', P b → List.foldlM f b l = some b' → P b' := by
  intro l
  induction l with
  | nil =>
      intro f _ b b' hPb hfold
      simp only [List.foldlM_nil] at hfold
      cases hfold
      exact hPb
  | cons a t ih =>
      intro f hstep b b' hPb hfold
      simp only [List.foldlM_cons] at hfold
      cases hfa : f b a with
      | none => rw [hfa] at hfold; cases hfold
      | some b1 =>
          rw [hfa] at hfold
          simp only [Option.bind_eq_bind, Option.some_bind] at hfold
          exact ih f (fun b a ha => hstep b a (List.mem_cons_of_mem _ ha)) b1 b'
            (hstep b a (List.mem_cons_self a t) hPb b1 hfa) hfold

theorem foldlM_option_some {α β : Type} (P : β → Prop) :
    ∀ (l : List α) (f : β → α → Option β),
      (∀ b a, a ∈ l → P b → ∃ b', f b a = some b' ∧ P b') →
      ∀ b, P b → ∃ b', List.foldlM f b l = some b' ∧ P b' := by
  intro l
  induction l with
  | nil =>
      intro f _ b hPb
      exact ⟨b, rfl, hPb⟩
  | cons a t ih =>
      intro f hstep b hPb
      obtain ⟨b1, hfa, hPb1⟩ := hstep b a (List.mem_cons_self a t) hPb
      obtain ⟨b', hfold, hPb'⟩ :=
        ih f (fun b a ha => hstep b a (List.mem_cons_of_mem _ ha)) b1 hPb1
      refine ⟨b', ?_, hPb'⟩
      simp only [List.foldlM_cons, hfa, Option.bind_eq_bind, Option.some_bind]
      exact hfold

theorem updateBest_visited (st : SearchState) (cur : Strategy) :
    (updateBest st cur).visited = st.visited := by
  unfold updateBest; split <;> rfl

theorem updateBest_floors (st : SearchState) (cur : Strategy) :
    (updateBest st cur).best_intermediate_scores = st.best_intermediate_scores := by
  unfold updateBest; split <;> rfl

theorem updateBest_score_le (st : SearchState) (cur : Strategy) :
    st.best_strategy.score ≤ (updateBest st cur).best_strategy.score := by
  unfold updateBest; split
  · simp only
    omega
  · exact le_refl _

theorem updateBest_cur_le (st : SearchState) (cur : Strategy) :
    cur.score ≤ (updateBest st cur).best_strategy.score := by
  unfold updateBest; split
  · exact le_refl _
  · omega

theorem recurse_zero (H W Dv : Nat) (grid : Grid) (st : SearchState)
    (cur : Strategy) (n : Nat) : recurse H W Dv 0 grid st cur n = none := rfl

theorem recurse_visited_le (H W Dv : Nat) :
    ∀ fuel (grid : Grid) (st : SearchState) (cur : Strategy) (n : Nat) (r : SearchState),
      recurse H W Dv fuel grid st cur n = some r →
      st.visited.length ≤ 1001 → r.visited.length ≤ 1001 := by
  intro fuel
  induction fuel with
  | zero =>
      intro grid st cur n r hrec
      rw [recurse_zero] at hrec
      cases hrec
  | succ fuel ih =>
      intro grid st cur n r hrec hst
      simp only [recurse] at hrec
      split at hrec
      · cases hrec
      · cases hrec
        rw [updateBest_visited]
        exact hst
      · split at hrec
        · cases hrec
        · split at hrec
          · cases hrec
            simp only [updateBest_visited]
            exact hst
          · split at hrec
            · cases hrec
              simp only [updateBest_visited]
              exact hst
            · rename_i hnotmem hcap
              refine foldlM_option_inv (fun s => s.visited.length ≤ 1001) _ _
                ?_ _ r ?_ hrec
              · intro s m _ hPs r' hrec'
                exact ih _ s _ _ r' hrec' hPs
              · simp only [List.length_append, updateBest_visited]
                simp only [updateBest_visited] at hcap
                simp only [List.length_singleton]
                omega

theorem applyBoxes_append (g0 : Grid) (bs : List Box) (b : Box) :
    applyBoxes g0 (bs ++ [b]) = applyBox (applyBoxes g0 bs) b := by
  unfold applyBoxes
  rw [List.foldl_append]
  rfl

theorem replayScore_append (bs : List Box) :
    ∀ (g0 : Grid) (b : Box),
      replayScore g0 (bs ++ [b]) =
        replayScore g0 bs +
          boxPosCount (applyBoxes g0 bs) b.x b.y b.width b.height := by
  induction bs with
  | nil =>
      intro g0 b
      simp [replayScore, applyBoxes]
  | cons b0 t ih =>
      intro g0 b
      have hstep : applyBoxes (applyBox g0 b0) t = applyBoxes g0 (b0 :: t) := by
        unfold applyBoxes
        rw [List.foldl_cons]
      rw [List.cons_append]
      rw [show replayScore g0 (b0 :: (t ++ [b])) =
        boxPosCount g0 b0.x b0.y b0.width b0.height +
          replayScore (applyBox g0 b0) (t ++ [b]) from rfl]
      rw [show replayScore g0 (b0 :: t) =
        boxPosCount g0 b0.x b0.y b0.width b0.height +
          replayScore (applyBox g0 b0) t from rfl]
      rw [ih (applyBox g0 b0) b, hstep]
      omega

theorem boxesValid_append (H W : Nat) (bs : List Box) :
    ∀ (g0 : Grid) (b : Box),
      boxesValid H W g0 bs = true →
      boxInBounds H W b →
      regionSum (applyBoxes g0 bs) b.x b.y b.width b.height = 10 →
      boxesValid H W g0 (bs ++ [b]) = true := by
  induction bs with
  | nil =>
      intro g0 b _ hin hsum
      simp only [List.nil_append, boxesValid, Bool.and_eq_true, decide_eq_true_eq]
      unfold applyBoxes at hsum
      simp only [List.foldl_nil] at hsum
      exact ⟨⟨hin, hsum⟩, trivial⟩
  | cons b0 t ih =>
      intro g0 b hvalid hin hsum
      simp only [List.cons_append, boxesValid, Bool.and_eq_true] at hvalid ⊢
      refine ⟨hvalid.1, ?_⟩
      apply ih (applyBox g0 b0) b hvalid.2 hin
      have : applyBoxes (applyBox g0 b0) t = applyBoxes g0 (b0 :: t) := by
        unfold applyBoxes
        rw [List.foldl_cons]
      rw [this]
      exact hsum

theorem cellsLe9_zeroBox (grid : Grid) (x y w h : Nat) (h9 : cellsLe9 grid) :
    cellsLe9 (zeroBox grid x y w h) := by
  intro i j
  rw [cell_zeroBox]
  split
  · omega
  · exact h9 i j

theorem wellFormed_cellsLe9 (H W : Nat) (grid : Grid) (hwf : wellFormed H W grid) :
    cellsLe9 grid := by
  intro i j
  unfold cell
  by_cases hi : i < grid.length
  · have hrow : grid.getD i [] = grid[i] := List.getD_eq_getElem grid [] hi
    have hmem : grid[i] ∈ grid := List.getElem_mem hi
    obtain ⟨_, hvals⟩ := hwf.2 grid[i] hmem
    by_cases hj : j < grid[i].length
    · rw [hrow, List.getD_eq_getElem _ _ hj]
      exact (hvals _ (List.getElem_mem hj)).2
    · have hz : (grid.getD i []).getD j 0 = 0 := by
        rw [hrow]
        rw [List.getD_eq_getElem?_getD, List.getElem?_eq_none (by omega)]
        rfl
      rw [hz]
      omega
  · have hz : grid.getD i [] = ([] : List Int) := by
      rw [List.getD_eq_getElem?_getD, List.getElem?_eq_none (by omega)]
      rfl
    rw [hz]
    simp [List.getD]

theorem gridWidth_le (W : Nat) (grid : Grid)
    (hrows : ∀ row ∈ grid, List.length row ≤ W) : gridWidth grid ≤ W := by
  induction grid with
  | nil => exact Nat.zero_le W
  | cons r t ih =>
      have h1 : r.length ≤ W := hrows r (List.mem_cons_self r t)
      have h2 : gridWidth t ≤ W := ih fun row hrow => hrows row (List.mem_cons_of_mem _ hrow)
      exact max_le h1 h2

theorem posCount_le (H W : Nat) (grid : Grid) (hwf : wellFormed H W grid) :
    posCount grid ≤ H * W := by
  unfold posCount
  have hcard : (Finset.range grid.length ×ˢ Finset.range (gridWidth grid)).card =
      grid.length * gridWidth grid := by
    rw [Finset.card_product, Finset.card_range, Finset.card_range]
  have hle : ∑ p ∈ Finset.range grid.length ×ˢ Finset.range (gridWidth grid),
      (if 0 < cell grid p.1 p.2 then 1 else 0) ≤
      (Finset.range grid.length ×ˢ Finset.range (gridWidth grid)).card * 1 := by
    have := Finset.sum_le_card_nsmul
      (Finset.range grid.length ×ˢ Finset.range (gridWidth grid))
      (fun p => if 0 < cell grid p.1 p.2 then 1 else 0) 1
      (fun x _ => by dsimp only; split <;> omega)
    simpa [smul_eq_mul] using this
  have hgw : gridWidth grid ≤ W :=
    gridWidth_le W grid fun row hrow => le_of_eq (hwf.2 row hrow).1
  calc ∑ p ∈ Finset.range grid.length ×ˢ Finset.range (gridWidth grid),
        (if 0 < cell grid p.1 p.2 then 1 else 0)
      ≤ (Finset.range grid.length ×ˢ Finset.range (gridWidth grid)).card * 1 := hle
    _ = grid.length * gridWidth grid := by rw [hcard, mul_one]
    _ ≤ H * W := by
        rw [hwf.1]
        exact Nat.mul_le_mul_left H hgw

theorem recurse_floors_length (H W Dv : Nat) :
    ∀ fuel (grid : Grid) (st : SearchState) (cur : Strategy) (n : Nat) (r : SearchState),
      recurse H W Dv fuel grid st cur n = some r →
      r.best_intermediate_scores.length = st.best_intermediate_scores.length := by
  intro fuel
  induction fuel with
  | zero =>
      intro grid st cur n r hrec
      rw [recurse_zero] at hrec
      cases hrec
  | succ fuel ih =>
      intro grid st cur n r hrec
      simp only [recurse] at hrec
      split at hrec
      · cases hrec
      · cases hrec
        rw [updateBest_floors]
      · split at hrec
        · cases hrec
        · split at hrec
          · cases hrec
            simp only [List.length_set, updateBest_floors]
          · split at hrec
            · cases hrec
              simp only [List.length_set, updateBest_floors]
            · refine foldlM_option_inv
                (fun s => s.best_intermediate_scores.length =
                  st.best_intermediate_scores.length) _ _ ?_ _ r ?_ hrec
              · intro s m _ hPs r' hrec'
                rw [ih _ s _ _ r' hrec']
                exact hPs
              · simp only [List.length_set, updateBest_floors]

theorem recurse_floors_preserved (H W Dv : Nat) :
    ∀ fuel (grid : Grid) (st : SearchState) (cur : Strategy) (n : Nat) (r : SearchState),
      recurse H W Dv fuel grid st cur n = some r →
      ∀ i, i < n → r.best_intermediate_scores[i]? = st.best_intermediate_scores[i]? := by
  intro fuel
  induction fuel with
  | zero =>
      intro grid st cur n r hrec
      rw [recurse_zero] at hrec
      cases hrec
  | succ fuel ih =>
      intro grid st cur n r hrec i hi
      simp only [recurse] at hrec
      split at hrec
      · cases hrec
      · cases hrec
        rw [updateBest_floors]
      · split at hrec
        · cases hrec
        · split at hrec
          · cases hrec
            simp only [updateBest_floors]
            rw [List.getElem?_set_ne (by omega)]
          · split at hrec
            · cases hrec
              simp only [updateBest_floors]
              rw [List.getElem?_set_ne (by omega)]
            · refine foldlM_option_inv
                (fun s => s.best_intermediate_scores[i]? =
                  st.best_intermediate_scores[i]?) _ _ ?_ _ r ?_ hrec
              · intro s m _ hPs r' hrec'
                rw [ih _ s _ _ r' hrec' i (by omega)]
                exact hPs
              · simp only [updateBest_floors]
                rw [List.getElem?_set_ne (by omega)]

theorem recurse_best_mono (H W Dv : Nat) :
    ∀ fuel (grid : Grid) (st : SearchState) (cur : Strategy) (n : Nat) (r : SearchState),
      recurse H W Dv fuel grid st cur n = some r →
      st.best_strategy.score ≤ r.best_strategy.score ∧
        cur.score ≤ r.best_strategy.score := by
  intro fuel
  induction fuel with
  | zero =>
      intro grid st cur n r hrec
      rw [recurse_zero] at hrec
      cases hrec
  | succ fuel ih =>
      intro grid st cur n r hrec
      have hub1 := updateBest_score_le st cur
      have hub2 := updateBest_cur_le st cur
      simp only [recurse] at hrec
      split at hrec
      · cases hrec
      · cases hrec
        exact ⟨hub1, hub2⟩
      · split at hrec
        · cases hrec
        · split at hrec
          · cases hrec
            exact ⟨hub1, hub2⟩
          · split at hrec
            · cases hrec
              exact ⟨hub1, hub2⟩
            · have hfold := foldlM_option_inv
                (fun s => (updateBest st cur).best_strategy.score ≤
                  s.best_strategy.score) _ _ ?_ _ r ?_ hrec
              · exact ⟨le_trans hub1 hfold, le_trans hub2 hfold⟩
              · intro s m _ hPs r' hrec'
                exact le_trans hPs (ih _ s _ _ r' hrec').1
              · exact le_refl _

theorem updateBest_good (H W : Nat) (g0 : Grid) (st : SearchState) (cur : Strategy)
    (hcurv : boxesValid H W g0 cur.boxes = true)
    (hcurs : cur.score = replayScore g0 cur.boxes)
    (hbv : boxesValid H W g0 st.best_strategy.boxes = true)
    (hbs : st.best_strategy.score = replayScore g0 st.best_strategy.boxes) :
    boxesValid H W g0 (updateBest st cur).best_strategy.boxes = true ∧
      (updateBest st cur).best_strategy.score =
        replayScore g0 (updateBest st cur).best_strategy.boxes := by
  unfold updateBest
  split
  · exact ⟨hcurv, hcurs⟩
  · exact ⟨hbv, hbs⟩

theorem recurse_good (H W Dv : Nat) (g0 : Grid) :
    ∀ fuel (grid : Grid) (st : SearchState) (cur : Strategy) (n : Nat) (r : SearchState),
      applyBoxes g0 cur.boxes = grid →
      cur.score = replayScore g0 cur.boxes →
      boxesValid H W g0 cur.boxes = true →
      boxesValid H W g0 st.best_strategy.boxes = true →
      st.best_strategy.score = replayScore g0 st.best_strategy.boxes →
      recurse H W Dv fuel grid st cur n = some r →
      boxesValid H W g0 r.best_strategy.boxes = true ∧
        r.best_strategy.score = replayScore g0 r.best_strategy.boxes := by
  intro fuel
  induction fuel with
  | zero =>
      intro grid st cur n r _ _ _ _ _ hrec
      rw [recurse_zero] at hrec
      cases hrec
  | succ fuel ih =>
      intro grid st cur n r happly hcurs hcurv hbv hbs hrec
      obtain ⟨hubv, hubs⟩ := updateBest_good H W g0 st cur hcurv hcurs hbv hbs
      simp only [recurse] at hrec
      split at hrec
      · cases hrec
      · cases hrec
        exact ⟨hubv, hubs⟩
      · split at hrec
        · cases hrec
        · split at hrec
          · cases hrec
            exact ⟨hubv, hubs⟩
          · split at hrec
            · cases hrec
              exact ⟨hubv, hubs⟩
            · refine foldlM_option_inv
                (fun s => boxesValid H W g0 s.best_strategy.boxes = true ∧
                  s.best_strategy.score = replayScore g0 s.best_strategy.boxes)
                _ _ ?_ _ r ?_ hrec
              · intro s m hm hPs r' hrec'
                obtain ⟨hyh, hxw, hh1, hw1, _, _⟩ := mem_possible_moves H W Dv grid m hm
                have hreg := mem_possible_moves_regionSum H W Dv grid m hm
                refine ih (zeroBox grid m.x m.y m.w m.h) s
                  { boxes := cur.boxes ++
                      [{ x := m.x, y := m.y, width := m.w, height := m.h }],
                    score := cur.score + boxPosCount grid m.x m.y m.w m.h }
                  (n + 1) r' ?_ ?_ ?_ hPs.1 hPs.2 hrec'
                · simp only
                  rw [applyBoxes_append, happly]
                  rfl
                · simp only
                  rw [replayScore_append, happly, hcurs]
                · simp only
                  refine boxesValid_append H W cur.boxes g0
                    { x := m.x, y := m.y, width := m.w, height := m.h }
                    hcurv ⟨hxw, hyh, hw1, hh1⟩ ?_
                  rw [happly]
                  exact hreg
              · exact ⟨hubv, hubs⟩

theorem recurse_some_aux (H W Dv : Nat) :
    ∀ fuel (grid : Grid) (st : SearchState) (cur : Strategy) (n L : Nat),
      cellsLe9 grid →
      posCount grid < fuel →
      st.best_intermediate_scores.length = L →
      st.best_strategy.boxes.length + 1 ≤ L →
      cur.boxes.length = n →
      2 * n + posCount grid + 1 ≤ 2 * L →
      ∃ r, recurse H W Dv fuel grid st cur n = some r ∧
        r.best_intermediate_scores.length = L ∧
        r.best_strategy.boxes.length + 1 ≤ L := by
  intro fuel
  induction fuel with
  | zero =>
      intro grid st cur n L _ hfuel _ _ _ _
      omega
  | succ fuel ih =>
      intro grid st cur n L h9 hfuel hlen hblen hclen hinv
      have hnL : n + 1 ≤ L := by omega
      have hub : (updateBest st cur).best_strategy.boxes.length + 1 ≤ L := by
        unfold updateBest
        split
        · simp only
          omega
        · exact hblen
      have hcheck : ∃ b,
          underperfCheck (updateBest st cur).best_intermediate_scores cur.score n =
            some b := by
        unfold underperfCheck
        rw [updateBest_floors]
        by_cases h0 : 0 < n
        · rw [if_pos h0, List.getElem?_eq_getElem (by omega)]
          exact ⟨_, rfl⟩
        · rw [if_neg h0]
          exact ⟨false, rfl⟩
      obtain ⟨b, hb⟩ := hcheck
      simp only [recurse]
      rw [hb]
      cases b with
      | true =>
          refine ⟨updateBest st cur, rfl, ?_, hub⟩
          rw [updateBest_floors]
          exact hlen
      | false =>
          have hfval : ∃ f, (updateBest st cur).best_intermediate_scores[n]? = some f := by
            rw [updateBest_floors, List.getElem?_eq_getElem (by omega)]
            exact ⟨_, rfl⟩
          obtain ⟨f, hf⟩ := hfval
          rw [hf]
          dsimp only
          by_cases hmem : hash_grid grid ∈ (updateBest st cur).visited
          · rw [if_pos hmem]
            refine ⟨_, rfl, ?_, hub⟩
            simp only [List.length_set, updateBest_floors]
            exact hlen
          · rw [if_neg hmem]
            by_cases hcap : 1000 < (updateBest st cur).visited.length
            · rw [if_pos hcap]
              refine ⟨_, rfl, ?_, hub⟩
              simp only [List.length_set, updateBest_floors]
              exact hlen
            · rw [if_neg hcap]
              have hstep : ∀ (s : SearchState) (m : CandidateMove),
                  m ∈ possible_moves H W Dv grid →
                  (s.best_intermediate_scores.length = L ∧
                    s.best_strategy.boxes.length + 1 ≤ L) →
                  ∃ r', recurse H W Dv fuel (zeroBox grid m.x m.y m.w m.h) s
                      { boxes := cur.boxes ++
                          [{ x := m.x, y := m.y, width := m.w, height := m.h }],
                        score := cur.score + boxPosCount grid m.x m.y m.w m.h }
                      (n + 1) = some r' ∧
                    (r'.best_intermediate_scores.length = L ∧
                      r'.best_strategy.boxes.length + 1 ≤ L) := by
                intro s m hm hPs
                have hreg := mem_possible_moves_regionSum H W Dv grid m hm
                have hlt := posCount_zeroBox_lt grid m.x m.y m.w m.h hreg
                have htwo := posCount_zeroBox_add_two_le grid m.x m.y m.w m.h h9 hreg
                obtain ⟨r', hrec', hr1, hr2⟩ := ih (zeroBox grid m.x m.y m.w m.h) s
                  { boxes := cur.boxes ++
                      [{ x := m.x, y := m.y, width := m.w, height := m.h }],
                    score := cur.score + boxPosCount grid m.x m.y m.w m.h }
                  (n + 1) L (cellsLe9_zeroBox grid m.x m.y m.w m.h h9)
                  (by omega) hPs.1 hPs.2
                  (by simp only [List.length_append, List.length_singleton]; omega)
                  (by omega)
                exact ⟨r', hrec', hr1, hr2⟩
              have hP2a : ((updateBest st cur).best_intermediate_scores.set n
                  (floorMin f cur.score)).length = L := by
                rw [List.length_set, updateBest_floors]
                exact hlen
              obtain ⟨r, hfold', hPr⟩ := foldlM_option_some
                (fun s : SearchState => s.best_intermediate_scores.length = L ∧
                  s.best_strategy.boxes.length + 1 ≤ L)
                (possible_moves H W Dv grid) _ hstep
                { visited := (updateBest st cur).visited ++ [hash_grid grid],
                  best_intermediate_scores :=
                    (updateBest st cur).best_intermediate_scores.set n (floorMin f cur.score),
                  best_strategy := (updateBest st cur).best_strategy }
                ⟨hP2a, hub⟩
              exact ⟨r, hfold', hPr.1, hPr.2⟩

theorem boxPosCount_pos (grid : Grid) (x y w h : Nat)
    (hsum : regionSum grid x y w h = 10) : 1 ≤ boxPosCount grid x y w h := by
  obtain ⟨p, hp, hpos⟩ := exists_pos_in_region grid x y w h hsum
  rw [boxPosCount_eq_region]
  have hle := Finset.single_le_sum
    (f := fun p : Nat × Nat => if 0 < cell grid p.1 p.2 then 1 else 0)
    (fun q _ => by dsimp only; split <;> omega) hp
  dsimp only at hle
  rw [if_pos hpos] at hle
  exact hle

theorem boxPosCount_two (grid : Grid) (x y w h : Nat) (h9 : cellsLe9 grid)
    (hsum : regionSum grid x y w h = 10) : 2 ≤ boxPosCount grid x y w h := by
  obtain ⟨p, hp, q, hq, hpq, hppos, hqpos⟩ :=
    exists_two_pos_in_region grid x y w h h9 hsum
  rw [boxPosCount_eq_region]
  have hqS' : q ∈ (Finset.Ico y (y + h) ×ˢ Finset.Ico x (x + w)).erase p :=
    Finset.mem_erase.mpr ⟨Ne.symm hpq, hq⟩
  have hgsplit :
      ∑ r ∈ Finset.Ico y (y + h) ×ˢ Finset.Ico x (x + w),
        (if 0 < cell grid r.1 r.2 then 1 else 0) =
      (if 0 < cell grid p.1 p.2 then (1 : Nat) else 0) +
        ((if 0 < cell grid q.1 q.2 then (1 : Nat) else 0) +
          ∑ r ∈ ((Finset.Ico y (y + h) ×ˢ Finset.Ico x (x + w)).erase p).erase q,
            (if 0 < cell grid r.1 r.2 then 1 else 0)) := by
    rw [Finset.add_sum_erase _ (fun r : Nat × Nat =>
      if 0 < cell grid r.1 r.2 then (1 : Nat) else 0) hqS',
      Finset.add_sum_erase _ (fun r : Nat × Nat =>
      if 0 < cell grid r.1 r.2 then (1 : Nat) else 0) hp]
  rw [hgsplit, if_pos hppos, if_pos hqpos]
  omega

theorem recurse_rejects (Hv Wv Dv fuel : Nat) (grid : Grid) (st : SearchState)
    (cur : Strategy) (n : Nat) (b : ScoreFloor) (hfuel : 0 < fuel) (h0 : 0 < n)
    (hread : st.best_intermediate_scores[n - 1]? = some b)
    (hlt : scoreLtFloor cur.score b = true) :
    recurse Hv Wv Dv fuel grid st cur n = some (updateBest st cur) := by
  cases fuel with
  | zero => omega
  | succ fuel =>
      have hch : underperfCheck (updateBest st cur).best_intermediate_scores
          cur.score n = some true := by
        unfold underperfCheck
        rw [if_pos h0, updateBest_floors, hread]
        simp [hlt]
      simp only [recurse, hch]

theorem getElem?_some_lt {α : Type} {l : List α} {n : Nat} {x : α}
    (h : l[n]? = some x) : n < l.length := by
  by_contra hcon
  rw [List.getElem?_eq_none (by omega)] at h
  cases h

theorem recurse_updates_floor (Hv Wv Dv fuel : Nat) (grid : Grid) (st : SearchState)
    (cur : Strategy) (n : Nat) (r : SearchState) (f : ScoreFloor)
    (hrec : recurse Hv Wv Dv fuel grid st cur n = some r)
    (hcheck : underperfCheck (updateBest st cur).best_intermediate_scores
      cur.score n = some false)
    (hread : st.best_intermediate_scores[n]? = some f) :
    r.best_intermediate_scores[n]? = some (floorMin f cur.score) := by
  cases fuel with
  | zero => rw [recurse_zero] at hrec; cases hrec
  | succ fuel =>
      have hread' : (updateBest st cur).best_intermediate_scores[n]? = some f := by
        rw [updateBest_floors]; exact hread
      have hn : n < st.best_intermediate_scores.length := getElem?_some_lt hread
      have hset : ((updateBest st cur).best_intermediate_scores.set n
          (floorMin f cur.score))[n]? = some (floorMin f cur.score) := by
        rw [List.getElem?_set_self (by rw [updateBest_floors]; exact hn)]
      simp only [recurse, hcheck, hread'] at hrec
      split at hrec
      · cases hrec
        exact hset
      · split at hrec
        · cases hrec
          exact hset
        · refine foldlM_option_inv
            (fun s : SearchState =>
              s.best_intermediate_scores[n]? = some (floorMin f cur.score))
            _ _ ?_ _ r ?_ hrec
          · intro s m _ hPs r' hrec'
            rw [recurse_floors_preserved Hv Wv Dv fuel _ s _ (n + 1) r' hrec' n
              (by omega)]
            exact hPs
          · exact hset

theorem recurse_capped (Hv Wv Dv fuel : Nat) (grid : Grid) (st : SearchState)
    (cur : Strategy) (n : Nat) (r : SearchState)
    (hcap : 1000 < st.visited.length)
    (hrec : recurse Hv Wv Dv fuel grid st cur n = some r) :
    r.visited = st.visited ∧ r.best_strategy = (updateBest st cur).best_strategy ∧
      ∀ i, i ≠ n → r.best_intermediate_scores[i]? = st.best_intermediate_scores[i]? := by
  cases fuel with
  | zero => rw [recurse_zero] at hrec; cases hrec
  | succ fuel =>
      simp only [recurse] at hrec
      split at hrec
      · cases hrec
      · cases hrec
        exact ⟨updateBest_visited st cur, rfl, fun i _ => by rw [updateBest_floors]⟩
      · split at hrec
        · cases hrec
        · split at hrec
          · cases hrec
            refine ⟨updateBest_visited st cur, rfl, fun i hi => ?_⟩
            simp only [updateBest_floors]
            rw [List.getElem?_set_ne (by omega)]
          · split at hrec
            · cases hrec
              refine ⟨updateBest_visited st cur, rfl, fun i hi => ?_⟩
              simp only [updateBest_floors]
              rw [List.getElem?_set_ne (by omega)]
            · rename_i hcap'
              exfalso
              rw [updateBest_visited] at hcap'
              omega

theorem hash_grid_flatten (grid : Grid) :
    hash_grid grid = grid.flatten.foldl (fun a v => a * 11 + v) 0 := by
  suffices hgen : ∀ (g : Grid) (a : Int),
      g.foldl (fun acc row => row.foldl (fun a v => a * 11 + v) acc) a =
        g.flatten.foldl (fun a v => a * 11 + v) a by
    exact hgen grid 0
  intro g
  induction g with
  | nil => intro a; rfl
  | cons r t ih =>
      intro a
      rw [List.flatten_cons, List.foldl_cons, List.foldl_append]
      exact ih _

theorem foldl_hash_shift (l : List Int) :
    ∀ a : Int, l.foldl (fun a v => a * 11 + v) a =
      a * 11 ^ l.length + l.foldl (fun a v => a * 11 + v) 0 := by
  induction l with
  | nil => intro a; simp
  | cons v t ih =>
      intro a
      rw [List.foldl_cons, List.foldl_cons, ih (a * 11 + v), ih (0 * 11 + v)]
      rw [List.length_cons, pow_succ]
      ring

theorem foldl_hash_bounds (l : List Int) (hb : ∀ v ∈ l, 0 ≤ v ∧ v ≤ 10) :
    0 ≤ l.foldl (fun a v => a * 11 + v) 0 ∧
      l.foldl (fun a v => a * 11 + v) 0 < 11 ^ l.length := by
  induction l with
  | nil => simp
  | cons v t ih =>
      obtain ⟨hv0, hv10⟩ := hb v (List.mem_cons_self v t)
      obtain ⟨ht0, htlt⟩ := ih fun u hu => hb u (List.mem_cons_of_mem _ hu)
      have hpow : (0 : Int) < 11 ^ t.length := by positivity
      rw [List.foldl_cons, foldl_hash_shift]
      have hv' : (0 * 11 + v) = v := by ring
      rw [hv']
      constructor
      · have h1 : 0 ≤ v * 11 ^ t.length := mul_nonneg hv0 (le_of_lt hpow)
        omega
      · rw [List.length_cons, pow_succ]
        have h1 : v * 11 ^ t.length + t.foldl (fun a v => a * 11 + v) 0 <
            (v + 1) * 11 ^ t.length := by nlinarith
        have h2 : (v + 1) * 11 ^ t.length ≤ 11 ^ t.length * 11 := by nlinarith
        omega

theorem foldl_hash_inj (l1 : List Int) :
    ∀ l2 : List Int, l1.length = l2.length →
      (∀ v ∈ l1, 0 ≤ v ∧ v ≤ 10) → (∀ v ∈ l2, 0 ≤ v ∧ v ≤ 10) →
      l1.foldl (fun a v => a * 11 + v) 0 = l2.foldl (fun a v => a * 11 + v) 0 →
      l1 = l2 := by
  induction l1 with
  | nil =>
      intro l2 hlen _ _ _
      exact (List.length_eq_zero.mp hlen.symm).symm
  | cons v1 t1 ih =>
      intro l2 hlen h1 h2 heq
      cases l2 with
      | nil => cases hlen
      | cons v2 t2 =>
          have hn : t1.length = t2.length := by simpa using hlen
          obtain ⟨hv10, hv110⟩ := h1 v1 (List.mem_cons_self v1 t1)
          obtain ⟨hv20, hv210⟩ := h2 v2 (List.mem_cons_self v2 t2)
          obtain ⟨ht10, ht1lt⟩ :=
            foldl_hash_bounds t1 fun u hu => h1 u (List.mem_cons_of_mem _ hu)
          obtain ⟨ht20, ht2lt⟩ :=
            foldl_hash_bounds t2 fun u hu => h2 u (List.mem_cons_of_mem _ hu)
          rw [List.foldl_cons, List.foldl_cons, foldl_hash_shift,
            foldl_hash_shift (l := t2)] at heq
          have hv1' : (0 * 11 + v1) = v1 := by ring
          have hv2' : (0 * 11 + v2) = v2 := by ring
          rw [hv1', hv2', hn] at heq
          have hpow : (0 : Int) < 11 ^ t2.length := by positivity
          rw [hn] at ht1lt
          have hveq : v1 = v2 := by
            rcases lt_trichotomy v1 v2 with hlt | heq' | hgt
            · exfalso
              have hstep : (v1 + 1) * 11 ^ t2.length ≤ v2 * 11 ^ t2.length :=
                mul_le_mul_of_nonneg_right (by omega) (le_of_lt hpow)
              nlinarith
            · exact heq'
            · exfalso
              have hstep : (v2 + 1) * 11 ^ t2.length ≤ v1 * 11 ^ t2.length :=
                mul_le_mul_of_nonneg_right (by omega) (le_of_lt hpow)
              nlinarith
          subst hveq
          have hteq : t1.foldl (fun a v => a * 11 + v) 0 =
              t2.foldl (fun a v => a * 11 + v) 0 := by omega
          rw [ih t2 hn (fun u hu => h1 u (List.mem_cons_of_mem _ hu))
            (fun u hu => h2 u (List.mem_cons_of_mem _ hu)) hteq]

theorem flatten_length_wf (W : Nat) :
    ∀ (g : Grid), (∀ row ∈ g, row.length = W) →
      g.flatten.length = g.length * W := by
  intro g
  induction g with
  | nil => intro _; simp
  | cons r t ih =>
      intro hrows
      rw [List.flatten_cons, List.length_append, List.length_cons,
        ih fun row hrow => hrows row (List.mem_cons_of_mem _ hrow),
        hrows r (List.mem_cons_self r t)]
      ring

theorem eq_of_flatten_eq (W : Nat) :
    ∀ (g1 g2 : Grid), (∀ row ∈ g1, row.length = W) →
      (∀ row ∈ g2, row.length = W) → g1.length = g2.length →
      g1.flatten = g2.flatten → g1 = g2 := by
  intro g1
  induction g1 with
  | nil =>
      intro g2 _ _ hlen _
      exact (List.length_eq_zero.mp hlen.symm).symm
  | cons r1 t1 ih =>
      intro g2 h1 h2 hlen hflat
      cases g2 with
      | nil => cases hlen
      | cons r2 t2 =>
          rw [List.flatten_cons, List.flatten_cons] at hflat
          have hr1 : r1.length = W := h1 r1 (List.mem_cons_self r1 t1)
          have hr2 : r2.length = W := h2 r2 (List.mem_cons_self r2 t2)
          obtain ⟨hr, ht⟩ := List.append_inj hflat (by omega)
          rw [hr, ih t2 (fun row hrow => h1 row (List.mem_cons_of_mem _ hrow))
            (fun row hrow => h2 row (List.mem_cons_of_mem _ hrow))
            (by simpa using hlen) ht]

theorem hash_grid_inj (H W : Nat) (g1 g2 : Grid)
    (hwf1 : wellFormed H W g1) (hwf2 : wellFormed H W g2)
    (heq : hash_grid g1 = hash_grid g2) : g1 = g2 := by
  have hb1 : ∀ v ∈ g1.flatten, 0 ≤ v ∧ v ≤ 10 := by
    intro v hv
    obtain ⟨row, hrow, hvrow⟩ := List.mem_flatten.mp hv
    obtain ⟨h0, h9⟩ := (hwf1.2 row hrow).2 v hvrow
    omega
  have hb2 : ∀ v ∈ g2.flatten, 0 ≤ v ∧ v ≤ 10 := by
    intro v hv
    obtain ⟨row, hrow, hvrow⟩ := List.mem_flatten.mp hv
    obtain ⟨h0, h9⟩ := (hwf2.2 row hrow).2 v hvrow
    omega
  have hlen : g1.flatten.length = g2.flatten.length := by
    rw [flatten_length_wf W g1 fun row hrow => (hwf1.2 row hrow).1,
      flatten_length_wf W g2 fun row hrow => (hwf2.2 row hrow).1,
      hwf1.1, hwf2.1]
  rw [hash_grid_flatten, hash_grid_flatten] at heq
  have hflat := foldl_hash_inj g1.flatten g2.flatten hlen hb1 hb2 heq
  exact eq_of_flatten_eq W g1 g2 (fun row hrow => (hwf1.2 row hrow).1)
    (fun row hrow => (hwf2.2 row hrow).1)
    (by rw [hwf1.1, hwf2.1]) hflat

theorem findStrategy_returns (Hv Wv Dv : Nat) (grid : Grid)
    (hwf : wellFormed Hv Wv grid) :
    ∃ s, findStrategy Hv Wv Dv grid = some s ∧
      s.boxes.length + 1 ≤ maxNumMoves Hv Wv := by
  have h9 := wellFormed_cellsLe9 Hv Wv grid hwf
  have hpc := posCount_le Hv Wv grid hwf
  obtain ⟨r, hrec, _, hblen⟩ := recurse_some_aux Hv Wv Dv (posCount grid + 1) grid
    (initialState Hv Wv) { boxes := [], score := 0 } 0 (maxNumMoves Hv Wv) h9
    (by omega)
    (by simp [initialState, List.length_replicate])
    (by simp [initialState]; unfold maxNumMoves; omega)
    rfl
    (by unfold maxNumMoves; omega)
  refine ⟨r.best_strategy, ?_, by omega⟩
  unfold findStrategy
  rw [hrec]
  rfl

theorem findStrategy_pos (Hv Wv Dv : Nat) (grid : Grid)
    (hwf : wellFormed Hv Wv grid) (hD : 0 < Dv)
    (hex : ∃ x y w h, x + w ≤ Wv ∧ y + h ≤ Hv ∧ 1 ≤ w ∧ 1 ≤ h ∧
      regionSum grid x y w h = 10) :
    ∃ s, findStrategy Hv Wv Dv grid = some s ∧ 0 < s.score := by
  classical
  obtain ⟨x, y, w, h, hxw, hyh, hw1, hh1, hreg⟩ := hex
  have h9 := wellFormed_cellsLe9 Hv Wv grid hwf
  have hpc := posCount_le Hv Wv grid hwf
  have hrect : (y, x, h, w) ∈ rects Hv Wv :=
    (mem_rects Hv Wv y x h w).mpr ⟨by omega, by omega, hh1, hyh, hw1, hxw⟩
  have hbox : boxSum grid Wv x y w h = 10 := by
    rw [boxSum_eq_regionSum grid Wv x y w h hxw]
    exact hreg
  have hcand : (⟨x, y, w, h, boxPosCount grid x y w h⟩ : CandidateMove) ∈
      sum10Candidates Hv Wv grid := by
    rw [mem_sum10Candidates]
    exact ⟨hrect, hbox, rfl⟩
  have hpmlen := (selInv_possible_moves Hv Wv Dv grid).2.1
  have hcandpos : 0 < (sum10Candidates Hv Wv grid).length :=
    List.length_pos_of_mem hcand
  have hpmpos : 0 < (possible_moves Hv Wv Dv grid).length := by omega
  obtain ⟨m, rest, hpm⟩ : ∃ m rest, possible_moves Hv Wv Dv grid = m :: rest := by
    cases hpm0 : possible_moves Hv Wv Dv grid with
    | nil => rw [hpm0] at hpmpos; cases hpmpos
    | cons m rest => exact ⟨m, rest, rfl⟩
  have hmmem : m ∈ possible_moves Hv Wv Dv grid := by
    rw [hpm]; exact List.mem_cons_self m rest
  -- entry state facts
  have hL1 : 1 ≤ maxNumMoves Hv Wv := by unfold maxNumMoves; omega
  have hcheck : underperfCheck
      (updateBest (initialState Hv Wv) { boxes := [], score := 0 }).best_intermediate_scores
      ({ boxes := [], score := 0 } : Strategy).score 0 = some false := by
    unfold underperfCheck
    rw [if_neg (by omega)]
  have hfval : (updateBest (initialState Hv Wv)
      { boxes := [], score := 0 }).best_intermediate_scores[0]? = some none := by
    rw [updateBest_floors]
    show (List.replicate (maxNumMoves Hv Wv) (none : ScoreFloor))[0]? = some none
    rw [List.getElem?_replicate, if_pos (by omega)]
  have hnotmem : hash_grid grid ∉
      (updateBest (initialState Hv Wv) { boxes := [], score := 0 }).visited := by
    rw [updateBest_visited]
    intro hmem
    cases hmem
  have hnocap : ¬ 1000 < (updateBest (initialState Hv Wv)
      { boxes := [], score := 0 }).visited.length := by
    rw [updateBest_visited]
    show ¬ 1000 < ([] : List Int).length
    simp
  -- the per-child invariant for the fold
  have hstep : ∀ (s : SearchState) (m' : CandidateMove),
      m' ∈ possible_moves Hv Wv Dv grid →
      (s.best_intermediate_scores.length = maxNumMoves Hv Wv ∧
        s.best_strategy.boxes.length + 1 ≤ maxNumMoves Hv Wv) →
      ∃ r', recurse Hv Wv Dv (posCount grid)
          (zeroBox grid m'.x m'.y m'.w m'.h) s
          { boxes := ([] : List Box) ++
              [{ x := m'.x, y := m'.y, width := m'.w, height := m'.h }],
            score := 0 + boxPosCount grid m'.x m'.y m'.w m'.h }
          (0 + 1) = some r' ∧
        (r'.best_intermediate_scores.length = maxNumMoves Hv Wv ∧
          r'.best_strategy.boxes.length + 1 ≤ maxNumMoves Hv Wv) := by
    intro s m' hm' hPs
    have hreg' := mem_possible_moves_regionSum Hv Wv Dv grid m' hm'
    have hlt := posCount_zeroBox_lt grid m'.x m'.y m'.w m'.h hreg'
    have htwo := posCount_zeroBox_add_two_le grid m'.x m'.y m'.w m'.h h9 hreg'
    have hHW : posCount grid + 1 ≤ 2 * maxNumMoves Hv Wv := by
      unfold maxNumMoves; omega
    obtain ⟨r', hrec', hr1, hr2⟩ := recurse_some_aux Hv Wv Dv (posCount grid)
      (zeroBox grid m'.x m'.y m'.w m'.h) s
      { boxes := ([] : List Box) ++
          [{ x := m'.x, y := m'.y, width := m'.w, height := m'.h }],
        score := 0 + boxPosCount grid m'.x m'.y m'.w m'.h }
      (0 + 1) (maxNumMoves Hv Wv)
      (cellsLe9_zeroBox grid m'.x m'.y m'.w m'.h h9)
      (by omega) hPs.1 hPs.2 (by simp) (by omega)
    exact ⟨r', hrec', hr1, hr2⟩
  -- walk the root call
  unfold findStrategy
  simp only [recurse, hcheck, hfval]
  rw [if_neg hnotmem, if_neg hnocap]
  rw [hpm, List.foldlM_cons]
  -- first child
  have hub0 : updateBest (initialState Hv Wv) { boxes := [], score := 0 } =
      initialState Hv Wv := by
    unfold updateBest
    rw [if_neg (by simp [initialState])]
  have hst2len : ((updateBest (initialState Hv Wv)
      { boxes := [], score := 0 }).best_intermediate_scores.set 0
        (floorMin none 0)).length = maxNumMoves Hv Wv := by
    rw [List.length_set, updateBest_floors]
    simp [initialState, List.length_replicate]
  have hst2best : (updateBest (initialState Hv Wv)
      { boxes := [], score := 0 }).best_strategy.boxes.length + 1 ≤
        maxNumMoves Hv Wv := by
    rw [hub0]
    simpa [initialState] using hL1
  obtain ⟨r1, hrec1, hP1⟩ := hstep
    { visited := (updateBest (initialState Hv Wv)
        { boxes := [], score := 0 }).visited ++ [hash_grid grid],
      best_intermediate_scores := (updateBest (initialState Hv Wv)
        { boxes := [], score := 0 }).best_intermediate_scores.set 0 (floorMin none 0),
      best_strategy := (updateBest (initialState Hv Wv)
        { boxes := [], score := 0 }).best_strategy }
    m hmmem ⟨hst2len, hst2best⟩
  have hscore1 : 1 ≤ r1.best_strategy.score := by
    have hmono := (recurse_best_mono Hv Wv Dv (posCount grid) _ _ _ _ _ hrec1).2
    have hcnt : 1 ≤ boxPosCount grid m.x m.y m.w m.h :=
      boxPosCount_pos grid m.x m.y m.w m.h
        (mem_possible_moves_regionSum Hv Wv Dv grid m hmmem)
    simp only at hmono
    omega
  rw [hrec1]
  simp only [Option.bind_eq_bind, Option.some_bind]
  -- remaining children
  obtain ⟨r, hfold, hPr⟩ := foldlM_option_some
    (fun s : SearchState => (s.best_intermediate_scores.length = maxNumMoves Hv Wv ∧
      s.best_strategy.boxes.length + 1 ≤ maxNumMoves Hv Wv) ∧
      1 ≤ s.best_strategy.score)
    rest _
    (by intro s m' hm' hPs
        obtain ⟨r', hrec', hr'⟩ := hstep s m'
          (by rw [hpm]; exact List.mem_cons_of_mem _ hm') hPs.1
        refine ⟨r', hrec', hr', ?_⟩
        have hmono := (recurse_best_mono Hv Wv Dv (posCount grid) _ _ _ _ _ hrec').1
        omega)
    r1 ⟨hP1, hscore1⟩
  rw [hfold]
  exact ⟨r.best_strategy, rfl, by omega⟩

/-- Claim C1: for every well-formed H×W grid, every Box in the Strategy
returned by solve/find_strategy is fully inside the grid bounds, has width ≥ 1
and height ≥ 1, and the sum of the grid values it covers — evaluated against
the grid state obtained by applying the earlier boxes of the Strategy in
order — equals exactly 10 (the `boxesValid` replay predicate). -/
theorem claim1_strategy_boxes_valid (Hv Wv Dv : Nat) (grid : Grid) (s : Strategy)
    (hwf : wellFormed Hv Wv grid)
    (hs : findStrategy Hv Wv Dv grid = some s) :
    boxesValid Hv Wv grid s.boxes = true := by
  unfold findStrategy at hs
  cases hrec : recurse Hv Wv Dv (posCount grid + 1) grid (initialState Hv Wv)
      { boxes := [], score := 0 } 0 with
  | none => rw [hrec] at hs; cases hs
  | some r =>
      rw [hrec] at hs
      simp only [Option.map_some'] at hs
      have hgood := recurse_good Hv Wv Dv grid (posCount grid + 1) grid
        (initialState Hv Wv) { boxes := [], score := 0 } 0 r rfl rfl rfl rfl rfl hrec
      rw [← Option.some.inj hs]
      exact hgood.1

/-- Witness for C1 at a concrete 1×2 grid. -/
theorem claim1_strategy_boxes_valid_witness :
    boxesValid 1 2 [[5, 5]] [{ x := 0, y := 0, width := 2, height := 1 }] = true :=
  claim1_strategy_boxes_valid 1 2 4 [[5, 5]]
    { boxes := [{ x := 0, y := 0, width := 2, height := 1 }], score := 2 }
    (by decide) (by decide)

/-- Claim C2: for every well-formed grid, the score of the Strategy returned
by solve/find_strategy equals the sum, over its boxes in order, of the number
of cells that are non-zero in the grid state immediately before that box is
applied (`replayScore`). -/
theorem claim2_score_replays (Hv Wv Dv : Nat) (grid : Grid) (s : Strategy)
    (hwf : wellFormed Hv Wv grid)
    (hs : findStrategy Hv Wv Dv grid = some s) :
    s.score = replayScore grid s.boxes := by
  unfold findStrategy at hs
  cases hrec : recurse Hv Wv Dv (posCount grid + 1) grid (initialState Hv Wv)
      { boxes := [], score := 0 } 0 with
  | none => rw [hrec] at hs; cases hs
  | some r =>
      rw [hrec] at hs
      simp only [Option.map_some'] at hs
      have hgood := recurse_good Hv Wv Dv grid (posCount grid + 1) grid
        (initialState Hv Wv) { boxes := [], score := 0 } 0 r rfl rfl rfl rfl rfl hrec
      rw [← Option.some.inj hs]
      exact hgood.2

/-- Witness for C2 at a concrete 1×2 grid. -/
theorem claim2_score_replays_witness :
    ({ boxes := [{ x := 0, y := 0, width := 2, height := 1 }], score := 2 } :
      Strategy).score =
      replayScore [[3, 7]] [{ x := 0, y := 0, width := 2, height := 1 }] :=
  claim2_score_replays 1 2 4 [[3, 7]]
    { boxes := [{ x := 0, y := 0, width := 2, height := 1 }], score := 2 }
    (by decide) (by decide)

/-- Claim C3: for every well-formed H×W grid with values in [0, 9],
solve/find_strategy terminates and returns a Strategy (modelled: the fallible
embedding returns `some`, so in particular no list index is ever out of
bounds and the fuel, which bounds the recursion, never runs out), and the
number of moves of the returned Strategy is at most ⌊H·W/2⌋ + 1
(`maxNumMoves`); the proof in fact bounds every search path by ⌊H·W/2⌋,
which is what makes every `best_intermediate_scores` access succeed. -/
theorem claim3_terminates_returns (Hv Wv Dv : Nat) (grid : Grid)
    (hwf : wellFormed Hv Wv grid) :
    ∃ s, findStrategy Hv Wv Dv grid = some s ∧
      s.boxes.length ≤ maxNumMoves Hv Wv := by
  obtain ⟨s, hs, hlen⟩ := findStrategy_returns Hv Wv Dv grid hwf
  exact ⟨s, hs, by omega⟩

/-- Witness for C3 at a concrete all-zero 2×2 grid. -/
theorem claim3_terminates_returns_witness :
    ∃ s, findStrategy 2 2 4 [[0, 0], [0, 0]] = some s ∧
      s.boxes.length ≤ maxNumMoves 2 2 :=
  claim3_terminates_returns 2 2 4 [[0, 0], [0, 0]] (by decide)

/-- Claim C4: the rectangle enumerator scans all in-bounds rectangles in
lexicographic (y, x, h, w) order (the fold over `rects`, fused here into a
fold of the insertion policy over the full lex-ordered sum-10 candidate list
`sum10Candidates`), its output has length ≤ D and length `min D (number of
sum-10 rectangles)`, it is sorted by removable count, every kept move is one
of the scanned sum-10 rectangles, and every sum-10 rectangle left out has a
removable count at least that of every kept one — so the kept list consists
of the D sum-10 rectangles with the smallest counts, ties favouring the
first discovered (strict-inequality eviction). -/
theorem claim4_enumerator_selects_smallest (Hv Wv Dv : Nat) (grid : Grid) :
    possible_moves Hv Wv Dv grid =
      (sum10Candidates Hv Wv grid).foldl (updateMoves Dv) [] ∧
    (possible_moves Hv Wv Dv grid).length ≤ Dv ∧
    (possible_moves Hv Wv Dv grid).length =
      min Dv (sum10Candidates Hv Wv grid).length ∧
    List.Pairwise (fun a b => a.count ≤ b.count) (possible_moves Hv Wv Dv grid) ∧
    (∀ m ∈ possible_moves Hv Wv Dv grid, m ∈ sum10Candidates Hv Wv grid) ∧
    (∀ c ∈ sum10Candidates Hv Wv grid, c ∉ possible_moves Hv Wv Dv grid →
      ∀ m ∈ possible_moves Hv Wv Dv grid, m.count ≤ c.count) := by
  obtain ⟨hsort, hlen, hmem, _, hmin⟩ := selInv_possible_moves Hv Wv Dv grid
  exact ⟨possible_moves_eq Hv Wv Dv grid, by omega, hlen, hsort, hmem, hmin⟩

/-- Witness for C4 at a 2×2 grid of fives with D = 1: four sum-10 rectangles
exist, exactly one (the first discovered) is kept, and a left-out candidate
has a count no smaller than the kept one. -/
theorem claim4_enumerator_selects_smallest_witness :
    (possible_moves 2 2 1 [[5, 5], [5, 5]]).length =
      min 1 (sum10Candidates 2 2 [[5, 5], [5, 5]]).length ∧
    (⟨0, 0, 2, 1, 2⟩ : CandidateMove).count ≤ (⟨0, 0, 1, 2, 2⟩ : CandidateMove).count :=
  ⟨(claim4_enumerator_selects_smallest 2 2 1 [[5, 5], [5, 5]]).2.2.1,
   (claim4_enumerator_selects_smallest 2 2 1 [[5, 5], [5, 5]]).2.2.2.2.2
     ⟨0, 0, 1, 2, 2⟩ (by decide) (by decide) ⟨0, 0, 2, 1, 2⟩ (by decide)⟩

/-- Claim C5: in every recursive call at depth d, if d > 0 and the in-progress
score is strictly below the floor recorded for depth d−1, the branch is
rejected — the call returns before enumerating, with only the best-strategy
update applied (`updateBest`); otherwise the floor at depth d becomes the
minimum of its previous value and the in-progress score (`floorMin`), and
every floor starts as plus infinity (`none`) at the start of a solve. -/
theorem claim5_bound_tracker :
    (∀ (Hv Wv Dv fuel : Nat) (grid : Grid) (st : SearchState) (cur : Strategy)
        (n : Nat) (b : ScoreFloor), 0 < fuel → 0 < n →
        st.best_intermediate_scores[n - 1]? = some b →
        scoreLtFloor cur.score b = true →
        recurse Hv Wv Dv fuel grid st cur n = some (updateBest st cur)) ∧
    (∀ (Hv Wv Dv fuel : Nat) (grid : Grid) (st : SearchState) (cur : Strategy)
        (n : Nat) (r : SearchState) (f : ScoreFloor),
        recurse Hv Wv Dv fuel grid st cur n = some r →
        underperfCheck (updateBest st cur).best_intermediate_scores cur.score n =
          some false →
        st.best_intermediate_scores[n]? = some f →
        r.best_intermediate_scores[n]? = some (floorMin f cur.score)) ∧
    (∀ Hv Wv : Nat, (initialState Hv Wv).best_intermediate_scores =
      List.replicate (maxNumMoves Hv Wv) none) :=
  ⟨fun Hv Wv Dv fuel grid st cur n b hf h0 hr hl =>
      recurse_rejects Hv Wv Dv fuel grid st cur n b hf h0 hr hl,
   fun Hv Wv Dv fuel grid st cur n r f hrec hch hrd =>
      recurse_updates_floor Hv Wv Dv fuel grid st cur n r f hrec hch hrd,
   fun _ _ => rfl⟩

/-- Witness for C5: a rejected call at depth 1 (score 3 below floor 5) returns
with only the best strategy updated, and the root call on a 1×2 grid records
floor `min(∞, 0) = 0` at depth 0. -/
theorem claim5_bound_tracker_witness :
    recurse 1 2 4 1 [[5, 5]]
      ⟨[], [some 5, some 9], ⟨[], 0⟩⟩ ⟨[], 3⟩ 1 =
      some (updateBest ⟨[], [some 5, some 9], ⟨[], 0⟩⟩ ⟨[], 3⟩) ∧
    (⟨[60, 0], [some 0, some 2],
      ⟨[{ x := 0, y := 0, width := 2, height := 1 }], 2⟩⟩ :
        SearchState).best_intermediate_scores[0]? = some (floorMin none 0) :=
  ⟨claim5_bound_tracker.1 1 2 4 1 [[5, 5]]
      ⟨[], [some 5, some 9], ⟨[], 0⟩⟩ ⟨[], 3⟩ 1 (some 5)
      (by decide) (by decide) (by decide) (by decide),
   claim5_bound_tracker.2.1 1 2 4 3 [[5, 5]] (initialState 1 2) ⟨[], 0⟩ 0
      ⟨[60, 0], [some 0, some 2],
        ⟨[{ x := 0, y := 0, width := 2, height := 1 }], 2⟩⟩ none
      (by decide) (by decide) (by decide)⟩

/-- Claim C6: during one solve invocation the visited fingerprint set never
exceeds the cap — "about 1000" is exactly 1001 entries, since the check
`len(visited) > 1000` happens before insertion — and once the cap is reached
every subsequently visited node returns without marking its fingerprint and
without enumerating or expanding children (its visited set is unchanged, its
best strategy is only updated by the entry comparison, and no floor other
than its own depth changes), regardless of whether the fingerprint is new. -/
theorem claim6_visited_cap :
    (∀ (Hv Wv Dv fuel : Nat) (grid : Grid) (st : SearchState) (cur : Strategy)
        (n : Nat) (r : SearchState),
        recurse Hv Wv Dv fuel grid st cur n = some r →
        st.visited.length ≤ 1001 → r.visited.length ≤ 1001) ∧
    (∀ (Hv Wv Dv fuel : Nat) (grid : Grid) (st : SearchState) (cur : Strategy)
        (n : Nat) (r : SearchState),
        1000 < st.visited.length →
        recurse Hv Wv Dv fuel grid st cur n = some r →
        r.visited = st.visited ∧
          r.best_strategy = (updateBest st cur).best_strategy ∧
          ∀ i, i ≠ n →
            r.best_intermediate_scores[i]? = st.best_intermediate_scores[i]?) :=
  ⟨fun Hv Wv Dv fuel grid st cur n r hrec hle =>
      recurse_visited_le Hv Wv Dv fuel grid st cur n r hrec hle,
   fun Hv Wv Dv fuel grid st cur n r hcap hrec =>
      recurse_capped Hv Wv Dv fuel grid st cur n r hcap hrec⟩

set_option maxRecDepth 8000 in
/-- Witness for C6: a small concrete run keeps the visited set within 1001
entries, and a call entered with 1001 visited entries returns with its
visited set unchanged. -/
theorem claim6_visited_cap_witness :
    ((⟨[0], [some 0], ⟨[], 0⟩⟩ : SearchState).visited.length ≤ 1001) ∧
    (⟨List.replicate 1001 7, [some 0], ⟨[], 0⟩⟩ : SearchState).visited =
      (⟨List.replicate 1001 7, [none], ⟨[], 0⟩⟩ : SearchState).visited :=
  ⟨claim6_visited_cap.1 1 1 4 1 [[0]] (initialState 1 1) ⟨[], 0⟩ 0
      ⟨[0], [some 0], ⟨[], 0⟩⟩ (by decide) (by decide),
   (claim6_visited_cap.2 1 1 4 1 [[0]]
      ⟨List.replicate 1001 7, [none], ⟨[], 0⟩⟩ ⟨[], 0⟩ 0
      ⟨List.replicate 1001 7, [some 0], ⟨[], 0⟩⟩
      (by decide) (by decide)).1⟩

/-- Counterexample to claim C7: the claim asserts the existence of two
distinct well-formed grids of the repository's dimensions with the same hash,
but the fingerprint is a base-11 positional encoding of the row-major cell
sequence, and since every well-formed cell value lies in [0, 9] ⊂ [0, 10],
base-11 digit strings of a fixed length are unique — so no such pair exists. -/
theorem claim7_no_collision_counterexample : ¬hashCollisionClaim := by
  rintro ⟨g1, g2, h1, h2, hne, heq⟩
  exact hne (hash_grid_inj HEIGHT WIDTH g1 g2 h1 h2 heq)

/-- Amended claim C7: the fingerprint fold `acc = acc * 11 + value` is
injective (collision-free) on well-formed grids of any one fixed dimension,
because values in [0, 9] are valid base-11 digits; collisions exist only
between grids of different shapes, as the concrete pair `[[1, 0]]` versus
`[[1], [0]]` (both hashing to 11) shows. -/
theorem claim7_hash_injective_amended :
    (∀ (Hv Wv : Nat) (g1 g2 : Grid), wellFormed Hv Wv g1 → wellFormed Hv Wv g2 →
      hash_grid g1 = hash_grid g2 → g1 = g2) ∧
    (hash_grid [[1, 0]] = hash_grid [[1], [0]] ∧ ([[1, 0]] : Grid) ≠ [[1], [0]]) :=
  ⟨hash_grid_inj, by decide, by decide⟩

/-- Witness for the amended C7 at two concrete grids with equal hashes. -/
theorem claim7_hash_injective_amended_witness : ([[2, 7]] : Grid) = [[2, 7]] :=
  claim7_hash_injective_amended.1 1 2 [[2, 7]] [[2, 7]] (by decide) (by decide) rfl

/-- Claim C8: solve/find_strategy is deterministic — called on identical grids
with identical constants H, W, D (and the fixed memoizer cap), it returns
identical Strategies (same box sequence and score).  The embedding is a pure
function, and the source reads its `visited` set only through membership and
size, so no iteration-order nondeterminism is observable. -/
theorem claim8_deterministic (Hv Wv Dv : Nat) (g1 g2 : Grid) (heq : g1 = g2) :
    findStrategy Hv Wv Dv g1 = findStrategy Hv Wv Dv g2 := by
  rw [heq]

/-- Witness for C8 at a concrete grid. -/
theorem claim8_deterministic_witness :
    findStrategy 1 2 4 [[5, 5]] = findStrategy 1 2 4 [[5, 5]] :=
  claim8_deterministic 1 2 4 [[5, 5]] [[5, 5]] rfl

/-- Claim C9: for every well-formed grid that contains at least one
axis-aligned rectangle of positive extent whose values sum to exactly 10, the
Strategy returned by solve/find_strategy has score strictly greater than 0
(stated for any positive branching constant D; the repository uses D = 4). -/
theorem claim9_positive_score (Hv Wv Dv : Nat) (grid : Grid)
    (hwf : wellFormed Hv Wv grid) (hD : 0 < Dv)
    (hex : ∃ x y w h, x + w ≤ Wv ∧ y + h ≤ Hv ∧ 1 ≤ w ∧ 1 ≤ h ∧
      regionSum grid x y w h = 10) :
    ∃ s, findStrategy Hv Wv Dv grid = some s ∧ 0 < s.score :=
  findStrategy_pos Hv Wv Dv grid hwf hD hex

/-- Witness for C9 at a concrete 1×2 grid containing one sum-10 rectangle. -/
theorem claim9_positive_score_witness :
    ∃ s, findStrategy 1 2 4 [[5, 5]] = some s ∧ 0 < s.score :=
  claim9_positive_score 1 2 4 [[5, 5]] (by decide) (by decide)
    ⟨0, 0, 2, 1, by decide, by decide, by decide, by decide, by decide⟩

/-- Claim C10 (implicit): in every recursive call reachable from
find_strategy on a well-formed grid, the index `num_moves` into
`best_intermediate_scores` (of length ⌊H·W/2⌋+1 = `maxNumMoves`) is in
bounds: every sum-10 rectangle over values ≤ 9 covers at least 2 non-zero
cells, so at most ⌊H·W/2⌋ moves can ever be applied on one path.  The first
conjunct is the two-cell bound; the second states that under the reachability
invariant (which holds at the root with `n = 0` and is preserved because each
move removes at least two positive cells) the fallible recursion — whose only
`none` sources are exactly those list indexings and the fuel, which the
invariant keeps ahead of the recursion — returns `some`. -/
theorem claim10_floor_index_in_bounds :
    (∀ (grid : Grid) (x y w h : Nat), cellsLe9 grid →
      regionSum grid x y w h = 10 → 2 ≤ boxPosCount grid x y w h) ∧
    (∀ (Hv Wv Dv fuel : Nat) (grid : Grid) (st : SearchState) (cur : Strategy)
        (n : Nat),
      cellsLe9 grid → posCount grid < fuel →
      st.best_intermediate_scores.length = maxNumMoves Hv Wv →
      st.best_strategy.boxes.length + 1 ≤ maxNumMoves Hv Wv →
      cur.boxes.length = n →
      2 * n + posCount grid + 1 ≤ 2 * maxNumMoves Hv Wv →
      (recurse Hv Wv Dv fuel grid st cur n).isSome) := by
  constructor
  · intro grid x y w h h9 hsum
    exact boxPosCount_two grid x y w h h9 hsum
  · intro Hv Wv Dv fuel grid st cur n h9 hfuel hlen hblen hclen hinv
    obtain ⟨r, hr, _⟩ := recurse_some_aux Hv Wv Dv fuel grid st cur n
      (maxNumMoves Hv Wv) h9 hfuel hlen hblen hclen hinv
    rw [hr]
    rfl

/-- Witness for C10 at a concrete 1×2 grid: its one sum-10 rectangle covers
two positive cells, and the root call returns `some`. -/
theorem claim10_floor_index_in_bounds_witness :
    2 ≤ boxPosCount [[5, 5]] 0 0 2 1 ∧
      (recurse 1 2 4 3 [[5, 5]] (initialState 1 2) ⟨[], 0⟩ 0).isSome :=
  ⟨claim10_floor_index_in_bounds.1 [[5, 5]] 0 0 2 1
      (wellFormed_cellsLe9 1 2 [[5, 5]] (by decide)) (by decide),
   claim10_floor_index_in_bounds.2 1 2 4 3 [[5, 5]] (initialState 1 2) ⟨[], 0⟩ 0
      (wellFormed_cellsLe9 1 2 [[5, 5]] (by decide)) (by decide) (by decide)
      (by decide) rfl (by decide)⟩
